import Mathlib

/-!
Shallow embedding of the sifbuilder package-resolution core:
`src/sifbuilder/__init__.py` (class Package), `src/sifbuilder/statusparser.py`
(`_splitter`, `_maxpackage`, `_maxpackage_vers`, `Software`, `parse_nmrbox_list`)
and the software-resolution part of `Builder._parse` in `src/sifbuilder/main.py`.

The Debian version comparison used by the source (`debian_support.version_compare`
from the external python-debian library) is embedded from that library's
pure-python `NativeVersion` implementation: a version string is validated and
split by the regex `^((\d+):)?([A-Za-z0-9.+:~-]+?)(-([A-Za-z0-9+.~]+))?$` into
epoch / upstream version / debian revision, and parts are compared by splitting
them into maximal digit / non-digit runs (`\d+|\D+`), comparing digit runs
numerically and other runs character-wise through an order function
(`~` → -1, digit d → d+1, letter → its code, other → code+256), padding the
shorter side with `0`.  The embedding covers the ASCII fragment (valid Debian
version strings are ASCII by the charset above).

Python dicts are modelled as insertion-ordered association lists; Python
exceptions (`AssertionError` from `assert`, `KeyError` from `data[k]`,
`ValueError` raised by the library and by `Builder._parse`) are modelled with
`Except PyErr`.  The `ValueError`s raised by `Builder._parse` for unknown
software or versions are modelled structurally (`unknownFamily`,
`unknownVersion`) carrying exactly the data interpolated into the Python
message, in the order the source produces it.
-/

deriving instance DecidableEq for Except

namespace Sifbuilder

/-- Python-style exceptions raised by the embedded code. -/
inductive PyErr where
  | assertionError
  | keyError (key : String)
  | valueError (msg : String)
  | unknownFamily (softwarename : String)
  | unknownVersion (version : String) (softwarename : String) (available : List String)
deriving DecidableEq, Repr

/-! ## Debian version comparison (python-debian `debian_support.NativeVersion`) -/

/-- Three-way integer sign comparison. -/
def icmp (a b : Int) : Int := if a < b then -1 else if b < a then 1 else 0

/-- `NativeVersion._order`: integer value of a character. -/
def charOrder (c : Char) : Int :=
  if c = '~' then -1
  else if c.isDigit then ((c.toNat : Int) - 48) + 1
  else if c.isAlpha then (c.toNat : Int)
  else (c.toNat : Int) + 256

/-- Tail of `NativeVersion._version_cmp_string` once the left list is exhausted:
the remaining right values are compared against the `0` padding. -/
def signAgainstZero : List Int → Int
  | [] => 0
  | b :: lb => if (0 : Int) < b then -1 else if b < 0 then 1 else signAgainstZero lb

/-- The loop of `NativeVersion._version_cmp_string`: compare two lists of
character orders pointwise, padding the shorter list with `0`. -/
def cmpListZ : List Int → List Int → Int
  | [], lb => signAgainstZero lb
  | a :: la, [] => if a < 0 then -1 else if 0 < a then 1 else cmpListZ la []
  | a :: la, b :: lb => if a < b then -1 else if b < a then 1 else cmpListZ la lb

/-- Orders of the characters of a string. -/
def strOrders (s : String) : List Int := s.toList.map charOrder

/-- `NativeVersion._version_cmp_string`. -/
def version_cmp_string (va vb : String) : Int := cmpListZ (strOrders va) (strOrders vb)

/-- Python `str.isdigit`: non-empty and all digits. -/
def pyIsdigit (s : String) : Bool := !s.toList.isEmpty && s.toList.all Char.isDigit

/-- Python `int` on a string of digits. -/
def natOfDigits (s : String) : Nat := s.toList.foldl (fun n c => 10 * n + (c.toNat - 48)) 0

/-- One round of the `NativeVersion._version_cmp_part` loop: numeric comparison
when both chunks are digit runs, character comparison otherwise. -/
def chunkCmp (a b : String) : Int :=
  if pyIsdigit a && pyIsdigit b then icmp (natOfDigits a) (natOfDigits b)
  else version_cmp_string a b

/-- Tail of the `_version_cmp_part` loop once the left list is exhausted;
missing chunks default to `"0"`. -/
def cmpChunksNil : List String → Int
  | [] => 0
  | b :: lb => if chunkCmp "0" b ≠ 0 then chunkCmp "0" b else cmpChunksNil lb

/-- The loop of `NativeVersion._version_cmp_part` over the two chunk lists,
padding the shorter list with `"0"`. -/
def cmpChunks : List String → List String → Int
  | [], lb => cmpChunksNil lb
  | a :: la, [] => if chunkCmp a "0" ≠ 0 then chunkCmp a "0" else cmpChunks la []
  | a :: la, b :: lb => if chunkCmp a b ≠ 0 then chunkCmp a b else cmpChunks la lb

/-- Split a character list into maximal runs of digits / non-digits
(`re.findall("\d+|\D+", s)`).  The fuel argument (instantiated with the length
of the list) only makes the recursion structural; each step consumes at least
the head character. -/
def chunksAux : Nat → List Char → List String
  | _, [] => []
  | 0, _ => []
  | fuel + 1, c :: cs =>
    let run := c :: cs.takeWhile (fun x => x.isDigit == c.isDigit)
    let rest := cs.dropWhile (fun x => x.isDigit == c.isDigit)
    String.mk run :: chunksAux fuel rest

/-- `NativeVersion.re_all_digits_or_not.findall`. -/
def chunks (s : String) : List String := chunksAux s.toList.length s.toList

/-- `NativeVersion._version_cmp_part`. -/
def version_cmp_part (va vb : String) : Int := cmpChunks (chunks va) (chunks vb)

/-- Characters allowed in the upstream-version part (`[A-Za-z0-9.+:~-]`). -/
def inUpstreamSet (c : Char) : Bool :=
  c.isAlphanum || c = '.' || c = '+' || c = ':' || c = '~' || c = '-'

/-- Characters allowed in the debian-revision part (`[A-Za-z0-9+.~]`). -/
def inRevisionSet (c : Char) : Bool :=
  c.isAlphanum || c = '+' || c = '.' || c = '~'

/-- A validated Debian version as produced by `BaseVersion`'s regex:
numeric epoch (0 when absent), upstream version, optional debian revision. -/
structure DebVersion where
  epoch : Nat
  upstream_version : String
  debian_revision : Option String
deriving DecidableEq, Repr

/-- Match `([A-Za-z0-9.+:~-]+?)(-([A-Za-z0-9+.~]+))?$` against a character
list: the non-greedy upstream part makes the revision split happen at the last
hyphen when the suffix after it is a valid revision; otherwise the whole list
is the upstream part. -/
def parseUpRev (cs : List Char) : Option (String × Option String) :=
  if cs.contains '-' then
    let revList := (cs.reverse.takeWhile (fun c => c ≠ '-')).reverse
    let upList := cs.take (cs.length - revList.length - 1)
    if !upList.isEmpty && upList.all inUpstreamSet &&
        !revList.isEmpty && revList.all inRevisionSet then
      some (String.mk upList, some (String.mk revList))
    else if cs.all inUpstreamSet then some (String.mk cs, none)
    else none
  else if !cs.isEmpty && cs.all inUpstreamSet then some (String.mk cs, none)
  else none

/-- `BaseVersion`'s validating regex: the optional greedy epoch (`(\d+):`)
is matched first and abandoned if the remainder cannot be parsed. -/
def parseDebVersion (s : String) : Option DebVersion :=
  let cs := s.toList
  let ds := cs.takeWhile Char.isDigit
  let noEpoch := (parseUpRev cs).map (fun ur => ⟨0, ur.1, ur.2⟩)
  match cs.dropWhile Char.isDigit with
  | ':' :: tail =>
    if ds.isEmpty then noEpoch
    else
      match parseUpRev tail with
      | some ur => some ⟨natOfDigits (String.mk ds), ur.1, ur.2⟩
      | none => noEpoch
  | _ => noEpoch

/-- `NativeVersion._compare`: epoch numerically, then upstream version, then
debian revision (absent revisions compare as `"0"`). -/
def debCmp (x y : DebVersion) : Int :=
  let e := icmp (x.epoch : Int) (y.epoch : Int)
  if e ≠ 0 then e
  else
    let u := version_cmp_part x.upstream_version y.upstream_version
    if u ≠ 0 then u
    else version_cmp_part (x.debian_revision.getD "0") (y.debian_revision.getD "0")

/-- `s` is accepted by `BaseVersion`'s validating regex. -/
def validVersion (s : String) : Bool := (parseDebVersion s).isSome

/-- `debian_support.version_compare`: construct both versions (raising
`ValueError` on an invalid string) and return the comparison sign. -/
def version_compare (a b : String) : Except PyErr Int :=
  match parseDebVersion a with
  | none => .error (.valueError ("Invalid version string " ++ a))
  | some va =>
    match parseDebVersion b with
    | none => .error (.valueError ("Invalid version string " ++ b))
    | some vb => .ok (debCmp va vb)

/-! ## Insertion-ordered dictionaries (Python `dict` / `defaultdict`) -/

/-- `d[k]` lookup returning `none` when absent. -/
def alookup {β : Type} : List (String × β) → String → Option β
  | [], _ => none
  | (k', v) :: rest, k => if k' = k then some v else alookup rest k

/-- `d[k] = v`: replace in place, or append a new key. -/
def dictSet {β : Type} : List (String × β) → String → β → List (String × β)
  | [], k, v => [(k, v)]
  | (k', v') :: rest, k, v =>
    if k' = k then (k, v) :: rest else (k', v') :: dictSet rest k v

/-- `defaultdict(list)`: `d[k].append(x)`. -/
def dictAppend {β : Type} : List (String × List β) → String → β → List (String × List β)
  | [], k, x => [(k, [x])]
  | (k', xs) :: rest, k, x =>
    if k' = k then (k', xs ++ [x]) :: rest else (k', xs) :: dictAppend rest k x

/-! ## The record model (`Package`, `Software`) -/

/-- `sifbuilder.Package`: a Debian package entry for NMRbox software. -/
structure Package where
  package : String
  pkg_vers : String
  software : String
  software_vers : String
deriving DecidableEq, Repr

/-- Python `str.upper` (ASCII fragment). -/
def pyUpper (s : String) : String := String.mk (s.toList.map Char.toUpper)

/-- `Package._FIELDS`. -/
def Package.FIELDS : List String := ["Version", "Nmrbox-Software", "Nmrbox-Version"]

/-- `Package.__init__(data)`: subscript each needed key (a missing key is a
`KeyError`), upper-casing the software family. -/
def Package.ofData (data : List (String × String)) : Except PyErr Package :=
  match alookup data "Package" with
  | none => .error (.keyError "Package")
  | some pn =>
    match alookup data "Version" with
    | none => .error (.keyError "Version")
    | some pv =>
      match alookup data "Nmrbox-Software" with
      | none => .error (.keyError "Nmrbox-Software")
      | some sw =>
        match alookup data "Nmrbox-Version" with
        | none => .error (.keyError "Nmrbox-Version")
        | some swv => .ok ⟨pn, pv, pyUpper sw, swv⟩

/-- `Package.parse(data)`: create a `Package` if all of `_FIELDS` are present
in `data`, else return `None`. -/
def Package.parse (data : List (String × String)) : Except PyErr (Option Package) :=
  if Package.FIELDS.all (fun f => (alookup data f).isSome) then
    (Package.ofData data).map some
  else .ok none

/-- Python substring containment (`needle in hay`). -/
def containsSub (needle : List Char) : List Char → Bool
  | [] => needle.isEmpty
  | c :: cs => needle.isPrefixOf (c :: cs) || containsSub needle cs

/-- `Package.isdata`: true if `'data' in self.package`. -/
def Package.isdata (p : Package) : Bool := containsSub "data".toList p.package.toList

/-- The inner scan of `_maxpackage` over `versions[1:]`: keep the running
latest, `assert cresult != 0` on a version-equal pair. -/
def maxPkgScan (rest : List Package) (latest : Package) : Except PyErr Package :=
  rest.foldlM (fun latest p => do
    let cresult ← version_compare p.pkg_vers latest.pkg_vers
    if cresult = 0 then .error .assertionError
    else if cresult = 1 then pure p else pure latest) latest

/-- One iteration of the outer loop of `_maxpackage`: append the latest
package of one per-name group (`assert versions` on an empty group). -/
def maxPkgGroup (result : List Package) (kv : String × List Package) :
    Except PyErr (List Package) :=
  match kv.2 with
  | [] => .error .assertionError
  | [v] => pure (result ++ [v])
  | v :: rest => do
    let latest ← maxPkgScan rest v
    pure (result ++ [latest])

/-- The outer loop of `_maxpackage` over the per-name groups. -/
def maxPkgCollect (groups : List (String × List Package)) (result : List Package) :
    Except PyErr (List Package) :=
  groups.foldlM maxPkgGroup result

/-- `statusparser._maxpackage`: for each package name keep the entry with the
maximum Debian version. -/
def _maxpackage (data : List Package) : Except PyErr (List Package) :=
  if data.length = 0 then .ok data
  else if data.length = 1 then .ok data
  else
    let pkg_latest := data.foldl (fun acc d => dictAppend acc d.package d) []
    maxPkgCollect pkg_latest []

/-- The loop of `_maxpackage_vers` over `data[1:]`: keep the running highest
version under `version_compare`. -/
def maxVersFold {α : Type} (attr : α → Except PyErr String) (rest : List α)
    (h : String) : Except PyErr String :=
  rest.foldlM (fun highest c => do
    let cvers ← attr c
    let cres ← version_compare cvers highest
    pure (if cres = 1 then cvers else highest)) h

/-- `statusparser._maxpackage_vers`: maximum version among `data` under the
attribute accessor (`assert data` on an empty list). -/
def _maxpackage_vers {α : Type} (data : List α) (attr : α → Except PyErr String) :
    Except PyErr String :=
  match data with
  | [] => .error .assertionError
  | [x] => attr x
  | x :: rest => do
    let h ← attr x
    maxVersFold attr rest h

/-- `statusparser.Software`. -/
structure Software where
  software : String
  version : String
  packages : List Package
  data_packages : List Package
deriving DecidableEq, Repr

/-- `Software.__post_init__`: if there are no main packages, the data packages
become the main packages (`assert self.data_packages`). -/
def Software.make (software version : String) (packages data_packages : List Package) :
    Except PyErr Software :=
  if packages.length = 0 then
    if data_packages.isEmpty then .error .assertionError
    else .ok ⟨software, version, data_packages, []⟩
  else .ok ⟨software, version, packages, data_packages⟩

/-- `Software.max_package_vers`. -/
def Software.max_package_vers (s : Software) : Except PyErr String :=
  _maxpackage_vers s.packages (fun p => .ok p.pkg_vers)

/-- One iteration of the list comprehension of `latest_packages`: keep `s`
when its `max_package_vers` equals `mv`. -/
def latestFilterStep (mv : String) (sw : List Software) (s : Software) :
    Except PyErr (List Software) := do
  let v ← s.max_package_vers
  pure (if v = mv then sw ++ [s] else sw)

/-- The list comprehension of `latest_packages`: the entries whose
`max_package_vers` equals `mv`. -/
def latestFilter (mv : String) (data : List Software) (sw : List Software) :
    Except PyErr (List Software) :=
  data.foldlM (latestFilterStep mv) sw

/-- `Software.latest_packages`: the `Software` entries whose
`max_package_vers` equals the computed maximum. -/
def Software.latest_packages (data : List Software) : Except PyErr (List Software) := do
  let mv ← _maxpackage_vers data Software.max_package_vers
  latestFilter mv data []

/-! ## The stanza parser and index builder (`parse_nmrbox_list`) -/

/-- Python `str.strip()` (after the source's `.strip('\n').strip()`, both
together strip surrounding whitespace). -/
def pyStrip (s : String) : String :=
  String.mk (((s.toList.dropWhile Char.isWhitespace).reverse.dropWhile
    Char.isWhitespace).reverse)

/-- `statusparser._splitter`: split a line at the first `:`; the key is the
raw prefix, the value is the stripped remainder. -/
def _splitter (line : String) : Option (String × String) :=
  let cs := line.toList
  if cs.contains ':' then
    let key := cs.takeWhile (fun c => c ≠ ':')
    let value := (cs.dropWhile (fun c => c ≠ ':')).tail
    some (String.mk key, pyStrip (String.mk value))
  else none

/-- State of the line loop in `parse_nmrbox_list`: the packages collected so
far, grouped by software family, and the currently open stanza bag. -/
structure ScanState where
  packages : List (String × List Package)
  bag : List (String × String)
deriving DecidableEq, Repr

/-- One iteration of the line loop of `parse_nmrbox_list`: a `Package:` line
flushes the open bag and starts a new one; other keyed lines extend the bag. -/
def scanLine (st : ScanState) (line : String) : Except PyErr ScanState :=
  match _splitter line with
  | none => .ok st
  | some (key, value) =>
    if key = "Package" then do
      let po ← Package.parse st.bag
      let packages :=
        match po with
        | some p => dictAppend st.packages p.software p
        | none => st.packages
      pure { packages := packages, bag := [(key, value)] }
    else
      .ok { st with bag := dictSet st.bag key value }

/-- The whole line loop of `parse_nmrbox_list`.  As in the source, the loop
ends with the last open bag left unflushed. -/
def scanLines (lines : List String) : Except PyErr (List (String × List Package)) := do
  let st ← lines.foldlM scanLine { packages := [], bag := [] }
  pure st.packages

/-- The two-level index: software family → software version → `Software`. -/
abbrev Index := List (String × List (String × Software))

/-- `index[sw][swvers] = software` on the `defaultdict(lambda: {})` index. -/
def indexSet : Index → String → String → Software → Index
  | [], sw, swvers, s => [(sw, [(swvers, s)])]
  | (k, inner) :: rest, sw, swvers, s =>
    if k = sw then (k, dictSet inner swvers s) :: rest
    else (k, inner) :: indexSet rest sw swvers s

/-- The grouping of one family's packages by `software_vers`
(`assert p.software == sw` inside the loop). -/
def groupVersionsStep (sw : String) (acc : List (String × List Package))
    (p : Package) : Except PyErr (List (String × List Package)) :=
  if p.software = sw then pure (dictAppend acc p.software_vers p)
  else .error .assertionError

/-- The grouping loop body applied to a whole package list. -/
def groupVersions (sw : String) (pkglist : List Package) :
    Except PyErr (List (String × List Package)) :=
  pkglist.foldlM (groupVersionsStep sw) []

/-- The inner loop of the index builder over one family's version groups:
partition into code and data packages, collapse each with `_maxpackage`,
construct the `Software` and store it under `index[sw][swvers]`. -/
def insertVersionStep (sw : String) (index2 : Index) (svkv : String × List Package) :
    Except PyErr Index := do
  let code := svkv.2.filter (fun p => !p.isdata)
  let data := svkv.2.filter (fun p => p.isdata)
  let mcode ← _maxpackage code
  let mdata ← _maxpackage data
  let software ← Software.make sw svkv.1 mcode mdata
  pure (indexSet index2 sw svkv.1 software)

/-- The inner index-builder loop applied to a whole version-group list. -/
def insertVersions (sw : String) (svs : List (String × List Package)) (index2 : Index) :
    Except PyErr Index :=
  svs.foldlM (insertVersionStep sw) index2

/-- The index-building loop of `parse_nmrbox_list`: skip the `UTILITY` family,
group each family's packages by software version, and insert the collapsed
`Software` records. -/
def buildFamilyStep (index : Index) (kv : String × List Package) : Except PyErr Index :=
  if kv.1 = "UTILITY" then pure index
  else do
    let software_versions ← groupVersions kv.1 kv.2
    insertVersions kv.1 software_versions index

/-- The index-building loop applied to the whole grouped package map. -/
def buildIndexFromMap (pkgMap : List (String × List Package)) : Except PyErr Index :=
  pkgMap.foldlM buildFamilyStep []

/-- Index building from a flat package sequence: the grouping by
`p.software` performed by the line loop, followed by the index loop. -/
def build_index (ps : List Package) : Except PyErr Index :=
  buildIndexFromMap (ps.foldl (fun acc p => dictAppend acc p.software p) [])

/-- `statusparser.parse_nmrbox_list` on a list of input lines. -/
def parse_nmrbox_list (lines : List String) : Except PyErr Index := do
  buildIndexFromMap (← scanLines lines)

/-- The per-software resolution step of `Builder._parse` (main.py): upper-case
the requested name, fail for an unknown family, resolve an omitted version via
`Software.latest_packages` and a given version by direct lookup, failing with
the requested version and the family's available versions when absent. -/
def resolve_software (inventory : Index) (s : String) (vers : Option String) :
    Except PyErr (List Software) :=
  let softwarename := pyUpper s
  match alookup inventory softwarename with
  | none => .error (.unknownFamily softwarename)
  | some available =>
    match vers with
    | none => Software.latest_packages (available.map Prod.snd)
    | some v =>
      match alookup available v with
      | none => .error (.unknownVersion v softwarename (available.map Prod.fst))
      | some added => .ok [added]

/-- The index invariant behind the `UTILITY` exclusion: no family key is
`"UTILITY"`, and every package stored under a family belongs to it. -/
def GoodIdx (idx : Index) : Prop :=
  ∀ fam entries, (fam, entries) ∈ idx → fam ≠ "UTILITY" ∧
    ∀ vs s, (vs, s) ∈ entries →
      ∀ p, (p ∈ s.packages ∨ p ∈ s.data_packages) → p.software = fam

/-- A string whose characters are all digits or all non-digits: the shape of
every chunk produced by `chunks`, and of the `"0"` padding. -/
def goodChunk (s : String) : Prop :=
  pyIsdigit s = true ∨ ∀ c ∈ s.toList, c.isDigit = false

/-- A digit-free chunk that compares below every digit chunk: the empty chunk
or a chunk starting with `~`. -/
def lowChunk (s : String) : Prop :=
  s.toList = [] ∨ ∃ t, s.toList = '~' :: t

/-- Laws making a three-valued comparator a total preorder on the set `S`:
values in `{-1,0,1}`, antisymmetric flip, equality propagation and strict
transitivity. -/
structure CmpOK {α : Type} (S : α → Prop) (c : α → α → Int) : Prop where
  val : ∀ a b, c a b = -1 ∨ c a b = 0 ∨ c a b = 1
  flip : ∀ a b, c b a = -(c a b)
  eqt : ∀ a b d, S a → S b → S d → c a b = 0 → c b d = c a d
  ltt : ∀ a b d, S a → S b → S d → c a b = -1 → c b d = -1 → c a d = -1

theorem CmpOK.rfl {α : Type} {S : α → Prop} {c : α → α → Int} (h : CmpOK S c)
    (a : α) : c a a = 0 := by
  have := h.flip a a
  omega

theorem CmpOK.eqt_right {α : Type} {S : α → Prop} {c : α → α → Int} (h : CmpOK S c)
    {a b d : α} (ha : S a) (hb : S b) (hd : S d) (hbd : c b d = 0) :
    c a b = c a d := by
  have h1 : c d b = 0 := by
    have := h.flip b d
    omega
  have h2 := h.eqt d b a hd hb ha h1
  have f1 := h.flip a b
  have f2 := h.flip a d
  omega

theorem CmpOK.le_trans {α : Type} {S : α → Prop} {c : α → α → Int} (h : CmpOK S c)
    {a b d : α} (ha : S a) (hb : S b) (hd : S d) (hab : c a b ≤ 0) (hbd : c b d ≤ 0) :
    c a d ≤ 0 := by
  rcases h.val a b with h1 | h1 | h1
  · rcases h.val b d with h2 | h2 | h2
    · have := h.ltt a b d ha hb hd h1 h2
      omega
    · have := h.eqt_right ha hb hd h2
      omega
    · omega
  · have := h.eqt a b d ha hb hd h1
    omega
  · omega

/-- Lexicographic composition of two lawful comparators is lawful. -/
theorem CmpOK.lex {α : Type} {S : α → Prop} {c₁ c₂ : α → α → Int}
    (h₁ : CmpOK S c₁) (h₂ : CmpOK S c₂) :
    CmpOK S (fun a b => if c₁ a b ≠ 0 then c₁ a b else c₂ a b) := by
  constructor
  · intro a b
    rcases h₁.val a b with h | h | h <;> rcases h₂.val a b with g | g | g <;> simp [h, g]
  · intro a b
    have f := h₁.flip a b
    have g := h₂.flip a b
    rcases h₁.val a b with h | h | h <;> simp [h, f, g]
  · intro a b d ha hb hd hab
    by_cases e1 : c₁ a b = 0
    · have e2 := h₁.eqt a b d ha hb hd e1
      have e3 : c₂ a b = 0 := by
        simp [e1] at hab
        exact hab
      have e4 := h₂.eqt a b d ha hb hd e3
      simp [e2, e4]
    · simp [e1] at hab
  · intro a b d ha hb hd hab hbd
    by_cases e1 : c₁ a b = 0
    · have e2 : c₂ a b = -1 := by simpa [e1] using hab
      by_cases e3 : c₁ b d = 0
      · have e4 : c₂ b d = -1 := by simpa [e3] using hbd
        have e5 : c₁ a d = 0 := by
          have := h₁.eqt a b d ha hb hd e1
          omega
        have e6 := h₂.ltt a b d ha hb hd e2 e4
        simp [e5, e6]
      · have e4 : c₁ b d = -1 := by
          rcases h₁.val b d with h | h | h
          · exact h
          · exact absurd h e3
          · simp [e3, h] at hbd
        have e5 : c₁ a d = -1 := by
          have := h₁.eqt a b d ha hb hd e1
          omega
        simp [e5]
    · have e2 : c₁ a b = -1 := by
        rcases h₁.val a b with h | h | h
        · exact h
        · exact absurd h e1
        · simp [e1, h] at hab
      by_cases e3 : c₁ b d = 0
      · have e4 : c₁ a d = -1 := by
          have := h₁.eqt_right ha hb hd e3
          omega
        simp [e4]
      · have e4 : c₁ b d = -1 := by
          rcases h₁.val b d with h | h | h
          · exact h
          · exact absurd h e3
          · simp [e3, h] at hbd
        have e5 := h₁.ltt a b d ha hb hd e2 e4
        simp [e5]

theorem icmp_laws : CmpOK (fun _ : Int => True) icmp := by
  constructor
  · intro a b
    unfold icmp
    split_ifs <;> omega
  · intro a b
    unfold icmp
    split_ifs <;> omega
  · intro a b d _ _ _ hh
    unfold icmp at hh ⊢
    split_ifs at hh ⊢ <;> omega
  · intro a b d _ _ _ h1 h2
    unfold icmp at h1 h2 ⊢
    split_ifs at h1 h2 ⊢ <;> omega

/-! ### Laws of `cmpListZ` -/

theorem cmpListZ_step (la lb : List Int) (h : ¬(la = [] ∧ lb = [])) :
    cmpListZ la lb =
      if la.headD 0 < lb.headD 0 then -1
      else if lb.headD 0 < la.headD 0 then 1
      else cmpListZ la.tail lb.tail := by
  match la, lb with
  | [], [] => exact absurd ⟨rfl, rfl⟩ h
  | [], b :: lb => simp [cmpListZ, signAgainstZero]
  | a :: la, [] => simp [cmpListZ]
  | a :: la, b :: lb => simp [cmpListZ]

theorem cmpListZ_flip_aux :
    ∀ n la lb, la.length + lb.length ≤ n → cmpListZ lb la = -(cmpListZ la lb) := by
  intro n
  induction n with
  | zero =>
    intro la lb hlen
    have h1 : la = [] := List.eq_nil_of_length_eq_zero (by omega)
    have h2 : lb = [] := List.eq_nil_of_length_eq_zero (by omega)
    subst h1; subst h2; rfl
  | succ n ih =>
    intro la lb hlen
    by_cases hab : la = [] ∧ lb = []
    · obtain ⟨h1, h2⟩ := hab
      subst h1; subst h2; rfl
    · have hba : ¬(lb = [] ∧ la = []) := fun x => hab ⟨x.2, x.1⟩
      rw [cmpListZ_step la lb hab, cmpListZ_step lb la hba]
      have hlen2 : la.tail.length + lb.tail.length ≤ n := by
        have t1 := List.length_tail la
        have t2 := List.length_tail lb
        have hne : la ≠ [] ∨ lb ≠ [] := by tauto
        rcases hne with h' | h'
        · have := List.length_pos.mpr h'
          omega
        · have := List.length_pos.mpr h'
          omega
      rw [ih la.tail lb.tail hlen2]
      split_ifs <;> omega

theorem cmpListZ_flip (la lb : List Int) : cmpListZ lb la = -(cmpListZ la lb) :=
  cmpListZ_flip_aux (la.length + lb.length) la lb le_rfl

theorem signAgainstZero_val (lb : List Int) :
    signAgainstZero lb = -1 ∨ signAgainstZero lb = 0 ∨ signAgainstZero lb = 1 := by
  induction lb with
  | nil => simp [signAgainstZero]
  | cons b lb ihb =>
    simp only [signAgainstZero]
    split_ifs
    · simp
    · simp
    · exact ihb

theorem cmpListZ_val (la lb : List Int) :
    cmpListZ la lb = -1 ∨ cmpListZ la lb = 0 ∨ cmpListZ la lb = 1 := by
  induction la generalizing lb with
  | nil => exact signAgainstZero_val lb
  | cons a la ih =>
    cases lb with
    | nil =>
      simp only [cmpListZ]
      split_ifs
      · simp
      · simp
      · exact ih []
    | cons b lb =>
      simp only [cmpListZ]
      split_ifs
      · simp
      · simp
      · exact ih lb

theorem cmpListZ_tails_le {α : Type} {la lb lc : List α} (n : Nat)
    (hlen : la.length + lb.length + lc.length ≤ n + 1) (hne : la ≠ [] ∨ lb ≠ []) :
    la.tail.length + lb.tail.length + lc.tail.length ≤ n := by
  have t1 := List.length_tail la
  have t2 := List.length_tail lb
  have t3 := List.length_tail lc
  rcases hne with h' | h'
  · have := List.length_pos.mpr h'
    omega
  · have := List.length_pos.mpr h'
    omega

theorem cmpListZ_eqt_aux :
    ∀ n la lb lc, la.length + lb.length + lc.length ≤ n →
      cmpListZ la lb = 0 → cmpListZ lb lc = cmpListZ la lc := by
  intro n
  induction n with
  | zero =>
    intro la lb lc hlen _
    have h1 : la = [] := List.eq_nil_of_length_eq_zero (by omega)
    have h2 : lb = [] := List.eq_nil_of_length_eq_zero (by omega)
    subst h1; subst h2; rfl
  | succ n ih =>
    intro la lb lc hlen h
    by_cases hab : la = [] ∧ lb = []
    · obtain ⟨h1, h2⟩ := hab
      subst h1; subst h2; rfl
    · by_cases hbc : lb = [] ∧ lc = []
      · obtain ⟨h1, h2⟩ := hbc
        subst h1; subst h2
        exact h.symm
      · by_cases hac : la = [] ∧ lc = []
        · obtain ⟨h1, h2⟩ := hac
          subst h1; subst h2
          have hf := cmpListZ_flip lb []
          have h0 : cmpListZ ([] : List Int) [] = 0 := rfl
          omega
        · have hlen2 := cmpListZ_tails_le n hlen (by tauto)
          rw [cmpListZ_step la lb hab] at h
          rw [cmpListZ_step lb lc hbc, cmpListZ_step la lc hac]
          split_ifs at h ⊢ <;> try omega
          all_goals exact ih la.tail lb.tail lc.tail hlen2 h

theorem cmpListZ_ltt_aux :
    ∀ n la lb lc, la.length + lb.length + lc.length ≤ n →
      cmpListZ la lb = -1 → cmpListZ lb lc = -1 → cmpListZ la lc = -1 := by
  intro n
  induction n with
  | zero =>
    intro la lb lc hlen h1 _
    have e1 : la = [] := List.eq_nil_of_length_eq_zero (by omega)
    have e2 : lb = [] := List.eq_nil_of_length_eq_zero (by omega)
    subst e1; subst e2
    exact absurd h1 (by decide)
  | succ n ih =>
    intro la lb lc hlen h1 h2
    by_cases hab : la = [] ∧ lb = []
    · obtain ⟨e1, e2⟩ := hab
      subst e1; subst e2
      exact absurd h1 (by decide)
    · by_cases hbc : lb = [] ∧ lc = []
      · obtain ⟨e1, e2⟩ := hbc
        subst e1; subst e2
        exact absurd h2 (by decide)
      · by_cases hac : la = [] ∧ lc = []
        · obtain ⟨e1, e2⟩ := hac
          subst e1; subst e2
          have := cmpListZ_flip [] lb
          omega
        · have hlen2 := cmpListZ_tails_le n hlen (by tauto)
          rw [cmpListZ_step la lb hab] at h1
          rw [cmpListZ_step lb lc hbc] at h2
          rw [cmpListZ_step la lc hac]
          split_ifs at h1 h2 ⊢ <;> try omega
          all_goals exact ih la.tail lb.tail lc.tail hlen2 h1 h2

theorem cmpListZ_laws : CmpOK (fun _ : List Int => True) cmpListZ := by
  constructor
  · exact cmpListZ_val
  · exact fun a b => cmpListZ_flip a b
  · intro a b d _ _ _ h
    exact cmpListZ_eqt_aux (a.length + b.length + d.length) a b d le_rfl h
  · intro a b d _ _ _ h1 h2
    exact cmpListZ_ltt_aux (a.length + b.length + d.length) a b d le_rfl h1 h2

/-! ### Character order band facts -/

theorem charOrder_digit {c : Char} (h : c.isDigit = true) :
    1 ≤ charOrder c ∧ charOrder c ≤ 10 := by
  have hb : 48 ≤ c.toNat ∧ c.toNat ≤ 57 := by
    simp [Char.isDigit] at h
    exact h
  have ht : ¬c = '~' := by
    intro e
    subst e
    simp at h
  unfold charOrder
  simp [ht, h]
  omega

theorem charOrder_nondigit {c : Char} (h : c.isDigit = false) :
    charOrder c = -1 ∨ 65 ≤ charOrder c := by
  unfold charOrder
  by_cases ht : c = '~'
  · simp [ht]
  · simp [ht, h]
    by_cases ha : c.isAlpha
    · have hb : 65 ≤ c.toNat ∧ c.toNat ≤ 122 := by
        simp [Char.isAlpha, Char.isUpper, Char.isLower] at ha
        obtain ⟨h1, h2⟩ | ⟨h1, h2⟩ := ha
        · have g1 : (65 : Nat) ≤ c.toNat := h1
          have g2 : c.toNat ≤ (90 : Nat) := h2
          omega
        · have g1 : (97 : Nat) ≤ c.toNat := h1
          have g2 : c.toNat ≤ (122 : Nat) := h2
          omega
      simp [ha]
      omega
    · simp [ha]
      omega

theorem charOrder_tilde : charOrder '~' = -1 := by decide

/-- Orders of a digit chunk: non-empty with head in `[1, 10]`. -/
theorem strOrders_digit {s : String} (h : pyIsdigit s = true) :
    ∃ o rest, strOrders s = o :: rest ∧ 1 ≤ o ∧ o ≤ 10 := by
  unfold pyIsdigit at h
  simp only [Bool.and_eq_true] at h
  obtain ⟨h1, h2⟩ := h
  match e : s.toList with
  | [] => rw [e] at h1; simp at h1
  | c :: t =>
    have hc : c.isDigit = true := by
      rw [e] at h2
      simp [List.all_cons] at h2
      exact h2.1
    refine ⟨charOrder c, t.map charOrder, ?_, ?_, ?_⟩
    · unfold strOrders
      rw [e]
      rfl
    · exact (charOrder_digit hc).1
    · exact (charOrder_digit hc).2

/-- Orders of a low digit-free chunk: empty or starting with `-1`. -/
theorem strOrders_low {s : String} (h : lowChunk s) :
    strOrders s = [] ∨ ∃ rest, strOrders s = -1 :: rest := by
  unfold strOrders
  rcases h with h | ⟨t, h⟩
  · rw [h]
    exact Or.inl rfl
  · rw [h]
    exact Or.inr ⟨t.map charOrder, by simp [charOrder_tilde]⟩

/-- Orders of a non-low digit-free chunk: head at least `65`. -/
theorem strOrders_high {s : String} (hd : ∀ c ∈ s.toList, c.isDigit = false)
    (h : ¬lowChunk s) : ∃ o rest, strOrders s = o :: rest ∧ 65 ≤ o := by
  unfold lowChunk at h
  push_neg at h
  obtain ⟨h1, h2⟩ := h
  match e : s.toList with
  | [] => exact absurd e h1
  | c :: t =>
    have hc : c.isDigit = false := hd c (by rw [e]; exact List.mem_cons_self c t)
    have hct : ¬c = '~' := by
      intro v
      subst v
      exact h2 t e
    rcases charOrder_nondigit hc with ho | ho
    · exfalso
      unfold charOrder at ho
      by_cases hv : c = '~'
      · exact hct hv
      · simp [hv, hc] at ho
        by_cases ha : c.isAlpha <;> simp [ha] at ho <;> omega
    · refine ⟨charOrder c, t.map charOrder, ?_, ho⟩
      unfold strOrders
      rw [e]
      rfl

/-! ### Cross-band comparisons -/

theorem cmp_low_digit {a d : String} (ha : lowChunk a) (hd : pyIsdigit d = true) :
    version_cmp_string a d = -1 := by
  obtain ⟨o, rest, he, h1, _⟩ := strOrders_digit hd
  unfold version_cmp_string
  rcases strOrders_low ha with h | ⟨r2, h⟩
  · rw [h, he]
    show signAgainstZero (o :: rest) = -1
    unfold signAgainstZero
    have : (0 : Int) < o := by omega
    simp [this]
  · rw [h, he]
    show cmpListZ (-1 :: r2) (o :: rest) = -1
    unfold cmpListZ
    have : (-1 : Int) < o := by omega
    simp [this]

theorem cmp_digit_high {d b : String} (hd : pyIsdigit d = true)
    (hb : ∀ c ∈ b.toList, c.isDigit = false) (hnb : ¬lowChunk b) :
    version_cmp_string d b = -1 := by
  obtain ⟨o, rest, he, h1, h2⟩ := strOrders_digit hd
  obtain ⟨p, r2, hf, h3⟩ := strOrders_high hb hnb
  unfold version_cmp_string
  rw [he, hf]
  show cmpListZ (o :: rest) (p :: r2) = -1
  unfold cmpListZ
  have : o < p := by omega
  simp [this]

theorem cmp_low_high {a b : String} (ha : lowChunk a)
    (hb : ∀ c ∈ b.toList, c.isDigit = false) (hnb : ¬lowChunk b) :
    version_cmp_string a b = -1 := by
  obtain ⟨p, r2, hf, h3⟩ := strOrders_high hb hnb
  unfold version_cmp_string
  rcases strOrders_low ha with h | ⟨r1, h⟩
  · rw [h, hf]
    show signAgainstZero (p :: r2) = -1
    unfold signAgainstZero
    have : (0 : Int) < p := by omega
    simp [this]
  · rw [h, hf]
    show cmpListZ (-1 :: r1) (p :: r2) = -1
    unfold cmpListZ
    have : (-1 : Int) < p := by omega
    simp [this]

/-! ### Laws of `chunkCmp` on good chunks -/

theorem not_true_false {b : Bool} (h : ¬b = true) : b = false := by
  simpa using h

theorem version_cmp_string_flip (a b : String) :
    version_cmp_string b a = -(version_cmp_string a b) := cmpListZ_flip _ _

theorem chunkCmp_dd {a b : String} (ha : pyIsdigit a = true) (hb : pyIsdigit b = true) :
    chunkCmp a b = icmp (natOfDigits a) (natOfDigits b) := by
  unfold chunkCmp
  simp [ha, hb]

theorem chunkCmp_str {a b : String} (h : pyIsdigit a = false ∨ pyIsdigit b = false) :
    chunkCmp a b = version_cmp_string a b := by
  unfold chunkCmp
  rcases h with h | h <;> simp [h]

theorem goodChunk_free {a : String} (hg : goodChunk a) (h : pyIsdigit a = false) :
    ∀ c ∈ a.toList, c.isDigit = false := by
  rcases hg with hg | hg
  · rw [hg] at h
    exact absurd h (by simp)
  · exact hg

theorem free_not_pyIsdigit {a : String} (hf : ∀ c ∈ a.toList, c.isDigit = false) :
    pyIsdigit a = false := by
  unfold pyIsdigit
  match e : a.toList with
  | [] => simp [e]
  | c :: t =>
    have := hf c (by rw [e]; exact List.mem_cons_self c t)
    simp [e, List.all_cons, this]

theorem cc_low_digit {a d : String} (hl : lowChunk a)
    (hf : ∀ c ∈ a.toList, c.isDigit = false) (hd : pyIsdigit d = true) :
    chunkCmp a d = -1 := by
  rw [chunkCmp_str (Or.inl (free_not_pyIsdigit hf))]
  exact cmp_low_digit hl hd

theorem cc_digit_high {d b : String} (hd : pyIsdigit d = true)
    (hf : ∀ c ∈ b.toList, c.isDigit = false) (hnb : ¬lowChunk b) :
    chunkCmp d b = -1 := by
  rw [chunkCmp_str (Or.inr (free_not_pyIsdigit hf))]
  exact cmp_digit_high hd hf hnb

theorem cc_low_high {a b : String} (hl : lowChunk a)
    (hfa : ∀ c ∈ a.toList, c.isDigit = false)
    (hfb : ∀ c ∈ b.toList, c.isDigit = false) (hnb : ¬lowChunk b) :
    chunkCmp a b = -1 := by
  rw [chunkCmp_str (Or.inl (free_not_pyIsdigit hfa))]
  exact cmp_low_high hl hfb hnb

theorem chunkCmp_flip (a b : String) : chunkCmp b a = -(chunkCmp a b) := by
  by_cases h : pyIsdigit a = true ∧ pyIsdigit b = true
  · rw [chunkCmp_dd h.1 h.2, chunkCmp_dd h.2 h.1]
    exact icmp_laws.flip _ _
  · have h' : pyIsdigit a = false ∨ pyIsdigit b = false := by
      by_cases x : pyIsdigit a = true
      · by_cases y : pyIsdigit b = true
        · exact absurd ⟨x, y⟩ h
        · exact Or.inr (not_true_false y)
      · exact Or.inl (not_true_false x)
    rw [chunkCmp_str h', chunkCmp_str h'.symm]
    exact version_cmp_string_flip a b

theorem chunkCmp_val (a b : String) :
    chunkCmp a b = -1 ∨ chunkCmp a b = 0 ∨ chunkCmp a b = 1 := by
  unfold chunkCmp
  split
  · exact icmp_laws.val _ _
  · exact cmpListZ_val _ _

/-- The sign of a mixed digit / digit-free chunk comparison depends only on
the band of the digit-free side. -/
theorem chunkCmp_free_digit {a d : String} (hf : ∀ c ∈ a.toList, c.isDigit = false)
    (hd : pyIsdigit d = true) :
    (lowChunk a ∧ chunkCmp a d = -1) ∨ (¬lowChunk a ∧ chunkCmp a d = 1) := by
  by_cases hl : lowChunk a
  · exact Or.inl ⟨hl, cc_low_digit hl hf hd⟩
  · refine Or.inr ⟨hl, ?_⟩
    have h1 := cc_digit_high hd hf hl
    have h2 := chunkCmp_flip d a
    omega

/-- A zero comparison between digit-free chunks forces them into the same
band. -/
theorem chunkCmp_free_free_band {a b : String}
    (hfa : ∀ c ∈ a.toList, c.isDigit = false)
    (hfb : ∀ c ∈ b.toList, c.isDigit = false) (h : chunkCmp a b = 0) :
    (lowChunk a ↔ lowChunk b) := by
  constructor
  · intro hla
    by_cases hlb : lowChunk b
    · exact hlb
    · have := cc_low_high hla hfa hfb hlb
      omega
  · intro hlb
    by_cases hla : lowChunk a
    · exact hla
    · have h1 := cc_low_high hlb hfb hfa hla
      have h2 := chunkCmp_flip b a
      omega

theorem chunkCmp_eqt {a b d : String} (ha : goodChunk a) (hb : goodChunk b)
    (hd : goodChunk d) (h : chunkCmp a b = 0) : chunkCmp b d = chunkCmp a d := by
  by_cases pa : pyIsdigit a = true
  · by_cases pb : pyIsdigit b = true
    · -- both digit: equal numeric values
      rw [chunkCmp_dd pa pb] at h
      by_cases pd : pyIsdigit d = true
      · rw [chunkCmp_dd pb pd, chunkCmp_dd pa pd]
        unfold icmp at h ⊢
        split_ifs at h ⊢ <;> omega
      · -- d digit-free: sign depends only on d's band
        have hfd := goodChunk_free hd (not_true_false pd)
        have f1 := chunkCmp_free_digit hfd pa
        have f2 := chunkCmp_free_digit hfd pb
        have g1 := chunkCmp_flip d a
        have g2 := chunkCmp_flip d b
        rcases f1 with ⟨_, e1⟩ | ⟨_, e1⟩ <;> rcases f2 with ⟨l2, e2⟩ | ⟨l2, e2⟩ <;>
          first
          | omega
          | (exfalso; tauto)
    · -- a digit, b digit-free: the mixed comparison is never zero
      exfalso
      have hfb := goodChunk_free hb (not_true_false pb)
      have f := chunkCmp_flip b a
      rcases chunkCmp_free_digit hfb pa with ⟨_, e⟩ | ⟨_, e⟩ <;> omega
  · -- a digit-free: chunkCmp a b is a string comparison
    have hfa := goodChunk_free ha (not_true_false pa)
    by_cases pb : pyIsdigit b = true
    · -- mixed comparison is never zero
      exfalso
      rcases chunkCmp_free_digit hfa pb with ⟨_, e⟩ | ⟨_, e⟩ <;> omega
    · have hfb := goodChunk_free hb (not_true_false pb)
      have hband := chunkCmp_free_free_band hfa hfb h
      by_cases pd : pyIsdigit d = true
      · -- both sides mixed against the digit d: same band, same sign
        have f1 := chunkCmp_free_digit hfa pd
        have f2 := chunkCmp_free_digit hfb pd
        rcases f1 with ⟨l1, e1⟩ | ⟨l1, e1⟩ <;> rcases f2 with ⟨l2, e2⟩ | ⟨l2, e2⟩ <;>
          first
          | omega
          | (exfalso; tauto)
      · -- all digit-free: string-comparison equality propagation
        rw [chunkCmp_str (Or.inl (free_not_pyIsdigit hfb)),
          chunkCmp_str (Or.inl (free_not_pyIsdigit hfa))]
        rw [chunkCmp_str (Or.inl (free_not_pyIsdigit hfa))] at h
        exact cmpListZ_laws.eqt _ _ _ trivial trivial trivial h

theorem chunkCmp_ltt {a b d : String} (ha : goodChunk a) (hb : goodChunk b)
    (hd : goodChunk d) (h1 : chunkCmp a b = -1) (h2 : chunkCmp b d = -1) :
    chunkCmp a d = -1 := by
  by_cases pa : pyIsdigit a = true
  · by_cases pb : pyIsdigit b = true
    · by_cases pd : pyIsdigit d = true
      · rw [chunkCmp_dd pa pb] at h1
        rw [chunkCmp_dd pb pd] at h2
        rw [chunkCmp_dd pa pd]
        exact icmp_laws.ltt _ _ _ trivial trivial trivial h1 h2
      · -- d digit-free; from h2 it is high, so a < d
        have hfd := goodChunk_free hd (not_true_false pd)
        by_cases hld : lowChunk d
        · exfalso
          have e := cc_low_digit hld hfd pb
          have f := chunkCmp_flip d b
          omega
        · exact cc_digit_high pa hfd hld
    · -- b digit-free; from h1 it is high, then h2 forces d high too
      have hfb := goodChunk_free hb (not_true_false pb)
      have hlb : ¬lowChunk b := by
        intro hl
        have e := cc_low_digit hl hfb pa
        have f := chunkCmp_flip b a
        omega
      by_cases pd : pyIsdigit d = true
      · exfalso
        have e := cc_digit_high pd hfb hlb
        have f := chunkCmp_flip d b
        omega
      · have hfd := goodChunk_free hd (not_true_false pd)
        by_cases hld : lowChunk d
        · exfalso
          have e := cc_low_high hld hfd hfb hlb
          have f := chunkCmp_flip d b
          omega
        · exact cc_digit_high pa hfd hld
  · have hfa := goodChunk_free ha (not_true_false pa)
    by_cases pb : pyIsdigit b = true
    · -- a digit-free, b digit: a is low
      have hla : lowChunk a := by
        by_cases hl : lowChunk a
        · exact hl
        · exfalso
          rcases chunkCmp_free_digit hfa pb with ⟨l, e⟩ | ⟨l, e⟩
          · exact hl l
          · omega
      by_cases pd : pyIsdigit d = true
      · exact cc_low_digit hla hfa pd
      · have hfd := goodChunk_free hd (not_true_false pd)
        by_cases hld : lowChunk d
        · exfalso
          have e := cc_low_digit hld hfd pb
          have f := chunkCmp_flip d b
          omega
        · exact cc_low_high hla hfa hfd hld
    · have hfb := goodChunk_free hb (not_true_false pb)
      by_cases pd : pyIsdigit d = true
      · -- d digit: b must be low (from h2), then a is low (from h1)
        have hlb : lowChunk b := by
          by_cases hl : lowChunk b
          · exact hl
          · exfalso
            rcases chunkCmp_free_digit hfb pd with ⟨l, e⟩ | ⟨l, e⟩
            · exact hl l
            · omega
        have hla : lowChunk a := by
          by_cases hl : lowChunk a
          · exact hl
          · exfalso
            have e := cc_low_high hlb hfb hfa hl
            have f := chunkCmp_flip b a
            omega
        exact cc_low_digit hla hfa pd
      · have hfd := goodChunk_free hd (not_true_false pd)
        rw [chunkCmp_str (Or.inl (free_not_pyIsdigit hfa))] at h1
        rw [chunkCmp_str (Or.inl (free_not_pyIsdigit hfb))] at h2
        rw [chunkCmp_str (Or.inl (free_not_pyIsdigit hfa))]
        exact cmpListZ_laws.ltt _ _ _ trivial trivial trivial h1 h2

theorem chunkCmp_laws : CmpOK goodChunk chunkCmp := by
  constructor
  · exact chunkCmp_val
  · exact fun a b => chunkCmp_flip a b
  · exact fun a b d ha hb hd h => chunkCmp_eqt ha hb hd h
  · exact fun a b d ha hb hd h1 h2 => chunkCmp_ltt ha hb hd h1 h2

/-! ### Laws of `cmpChunks` on lists of good chunks -/

theorem goodChunk_zero : goodChunk "0" := Or.inl (by decide)

theorem good_headD {l : List String} (h : ∀ x ∈ l, goodChunk x) :
    goodChunk (l.headD "0") := by
  cases l with
  | nil => exact goodChunk_zero
  | cons a t => exact h a (List.mem_cons_self a t)

theorem good_tail {l : List String} (h : ∀ x ∈ l, goodChunk x) :
    ∀ x ∈ l.tail, goodChunk x := by
  intro x hx
  exact h x (List.mem_of_mem_tail hx)

theorem cmpChunks_step (la lb : List String) (h : ¬(la = [] ∧ lb = [])) :
    cmpChunks la lb =
      if chunkCmp (la.headD "0") (lb.headD "0") ≠ 0 then
        chunkCmp (la.headD "0") (lb.headD "0")
      else cmpChunks la.tail lb.tail := by
  match la, lb with
  | [], [] => exact absurd ⟨rfl, rfl⟩ h
  | [], b :: lb => simp [cmpChunks, cmpChunksNil]
  | a :: la, [] => simp [cmpChunks]
  | a :: la, b :: lb => simp [cmpChunks]

theorem cmpChunksNil_val (lb : List String) :
    cmpChunksNil lb = -1 ∨ cmpChunksNil lb = 0 ∨ cmpChunksNil lb = 1 := by
  induction lb with
  | nil => simp [cmpChunksNil]
  | cons b lb ih =>
    simp only [cmpChunksNil]
    split_ifs
    · exact chunkCmp_val "0" b
    · exact ih

theorem cmpChunks_val (la lb : List String) :
    cmpChunks la lb = -1 ∨ cmpChunks la lb = 0 ∨ cmpChunks la lb = 1 := by
  induction la generalizing lb with
  | nil => exact cmpChunksNil_val lb
  | cons a la ih =>
    cases lb with
    | nil =>
      simp only [cmpChunks]
      split_ifs
      · exact chunkCmp_val a "0"
      · exact ih []
    | cons b lb =>
      simp only [cmpChunks]
      split_ifs
      · exact chunkCmp_val a b
      · exact ih lb

theorem cmpChunks_flip_aux :
    ∀ n la lb, la.length + lb.length ≤ n → cmpChunks lb la = -(cmpChunks la lb) := by
  intro n
  induction n with
  | zero =>
    intro la lb hlen
    have h1 : la = [] := List.eq_nil_of_length_eq_zero (by omega)
    have h2 : lb = [] := List.eq_nil_of_length_eq_zero (by omega)
    subst h1; subst h2; rfl
  | succ n ih =>
    intro la lb hlen
    by_cases hab : la = [] ∧ lb = []
    · obtain ⟨h1, h2⟩ := hab
      subst h1; subst h2; rfl
    · have hba : ¬(lb = [] ∧ la = []) := fun x => hab ⟨x.2, x.1⟩
      rw [cmpChunks_step la lb hab, cmpChunks_step lb la hba]
      have hlen2 : la.tail.length + lb.tail.length + ([] : List String).tail.length ≤ n :=
        cmpListZ_tails_le n (by simpa using hlen) (by tauto)
      rw [ih la.tail lb.tail (by simpa using hlen2)]
      have hf := chunkCmp_flip (la.headD "0") (lb.headD "0")
      split_ifs <;> omega

theorem cmpChunks_flip (la lb : List String) : cmpChunks lb la = -(cmpChunks la lb) :=
  cmpChunks_flip_aux (la.length + lb.length) la lb le_rfl

theorem cmpChunks_eqt_aux :
    ∀ n la lb lc, la.length + lb.length + lc.length ≤ n →
      (∀ x ∈ la, goodChunk x) → (∀ x ∈ lb, goodChunk x) → (∀ x ∈ lc, goodChunk x) →
      cmpChunks la lb = 0 → cmpChunks lb lc = cmpChunks la lc := by
  intro n
  induction n with
  | zero =>
    intro la lb lc hlen _ _ _ _
    have h1 : la = [] := List.eq_nil_of_length_eq_zero (by omega)
    have h2 : lb = [] := List.eq_nil_of_length_eq_zero (by omega)
    subst h1; subst h2; rfl
  | succ n ih =>
    intro la lb lc hlen ga gb gc h
    by_cases hab : la = [] ∧ lb = []
    · obtain ⟨e1, e2⟩ := hab
      subst e1; subst e2; rfl
    · by_cases hbc : lb = [] ∧ lc = []
      · obtain ⟨e1, e2⟩ := hbc
        subst e1; subst e2
        exact h.symm
      · by_cases hac : la = [] ∧ lc = []
        · obtain ⟨e1, e2⟩ := hac
          subst e1; subst e2
          have hf := cmpChunks_flip lb []
          have h0 : cmpChunks [] [] = 0 := rfl
          omega
        · have hlen2 := cmpListZ_tails_le n hlen (by tauto)
          rw [cmpChunks_step la lb hab] at h
          rw [cmpChunks_step lb lc hbc, cmpChunks_step la lc hac]
          by_cases hcab : chunkCmp (la.headD "0") (lb.headD "0") = 0
          · rw [if_neg (not_ne_iff.mpr hcab)] at h
            have key := chunkCmp_eqt (good_headD ga) (good_headD gb) (good_headD gc) hcab
            rw [key]
            by_cases hcac : chunkCmp (la.headD "0") (lc.headD "0") = 0
            · rw [if_neg (not_ne_iff.mpr hcac), if_neg (not_ne_iff.mpr hcac)]
              exact ih la.tail lb.tail lc.tail hlen2 (good_tail ga) (good_tail gb)
                (good_tail gc) h
            · rw [if_pos hcac, if_pos hcac]
          · rw [if_pos hcab] at h
            exact absurd h hcab

theorem cmpChunks_ltt_aux :
    ∀ n la lb lc, la.length + lb.length + lc.length ≤ n →
      (∀ x ∈ la, goodChunk x) → (∀ x ∈ lb, goodChunk x) → (∀ x ∈ lc, goodChunk x) →
      cmpChunks la lb = -1 → cmpChunks lb lc = -1 → cmpChunks la lc = -1 := by
  intro n
  induction n with
  | zero =>
    intro la lb lc hlen _ _ _ h1 _
    have e1 : la = [] := List.eq_nil_of_length_eq_zero (by omega)
    have e2 : lb = [] := List.eq_nil_of_length_eq_zero (by omega)
    subst e1; subst e2
    exact absurd h1 (by decide)
  | succ n ih =>
    intro la lb lc hlen ga gb gc h1 h2
    by_cases hab : la = [] ∧ lb = []
    · obtain ⟨e1, e2⟩ := hab
      subst e1; subst e2
      exact absurd h1 (by decide)
    · by_cases hbc : lb = [] ∧ lc = []
      · obtain ⟨e1, e2⟩ := hbc
        subst e1; subst e2
        exact absurd h2 (by decide)
      · by_cases hac : la = [] ∧ lc = []
        · obtain ⟨e1, e2⟩ := hac
          subst e1; subst e2
          have hf := cmpChunks_flip [] lb
          omega
        · have hlen2 := cmpListZ_tails_le n hlen (by tauto)
          have hA := good_headD ga
          have hB := good_headD gb
          have hC := good_headD gc
          rw [cmpChunks_step la lb hab] at h1
          rw [cmpChunks_step lb lc hbc] at h2
          rw [cmpChunks_step la lc hac]
          by_cases hcab : chunkCmp (la.headD "0") (lb.headD "0") = 0
          · rw [if_neg (not_ne_iff.mpr hcab)] at h1
            have key := chunkCmp_eqt hA hB hC hcab
            by_cases hcbc : chunkCmp (lb.headD "0") (lc.headD "0") = 0
            · rw [if_neg (not_ne_iff.mpr hcbc)] at h2
              have hcac : chunkCmp (la.headD "0") (lc.headD "0") = 0 := by omega
              rw [if_neg (not_ne_iff.mpr hcac)]
              exact ih la.tail lb.tail lc.tail hlen2 (good_tail ga) (good_tail gb)
                (good_tail gc) h1 h2
            · rw [if_pos hcbc] at h2
              have hcac : chunkCmp (la.headD "0") (lc.headD "0") = -1 := by omega
              rw [if_pos (by omega), hcac]
          · rw [if_pos hcab] at h1
            by_cases hcbc : chunkCmp (lb.headD "0") (lc.headD "0") = 0
            · have key := chunkCmp_laws.eqt_right hA hB hC hcbc
              have hcac : chunkCmp (la.headD "0") (lc.headD "0") = -1 := by omega
              rw [if_pos (by omega), hcac]
            · rw [if_pos hcbc] at h2
              have hcac := chunkCmp_ltt hA hB hC h1 h2
              rw [if_pos (by omega), hcac]

theorem cmpChunks_laws : CmpOK (fun l : List String => ∀ x ∈ l, goodChunk x) cmpChunks := by
  constructor
  · exact cmpChunks_val
  · exact fun a b => cmpChunks_flip a b
  · intro a b d ha hb hd h
    exact cmpChunks_eqt_aux (a.length + b.length + d.length) a b d le_rfl ha hb hd h
  · intro a b d ha hb hd h1 h2
    exact cmpChunks_ltt_aux (a.length + b.length + d.length) a b d le_rfl ha hb hd h1 h2

/-! ### `version_cmp_part` and `debCmp` are lawful comparisons -/

theorem chunksAux_good : ∀ fuel cs, ∀ x ∈ chunksAux fuel cs, goodChunk x := by
  intro fuel
  induction fuel with
  | zero =>
    intro cs x hx
    cases cs <;> simp [chunksAux] at hx
  | succ fuel ih =>
    intro cs x hx
    cases cs with
    | nil => simp [chunksAux] at hx
    | cons c cs =>
      simp only [chunksAux, List.mem_cons] at hx
      rcases hx with hx | hx
      · subst hx
        by_cases hc : c.isDigit = true
        · left
          unfold pyIsdigit
          simp only [Bool.and_eq_true]
          constructor
          · simp [String.toList]
          · simp only [String.toList]
            show (c :: _).all Char.isDigit = true
            simp only [List.all_cons, Bool.and_eq_true]
            refine ⟨hc, ?_⟩
            rw [List.all_eq_true]
            intro y hy
            have hp := List.mem_takeWhile_imp hy
            simp [hc] at hp
            exact hp
        · right
          intro y hy
          simp only [String.toList] at hy
          have : y ∈ c :: cs.takeWhile (fun x => x.isDigit == c.isDigit) := hy
          rcases List.mem_cons.mp this with e | e
          · subst e
            exact not_true_false hc
          · have hp := List.mem_takeWhile_imp e
            simp only [beq_iff_eq] at hp
            rw [hp]
            exact not_true_false hc
      · exact ih _ x hx

theorem chunks_good (s : String) : ∀ x ∈ chunks s, goodChunk x :=
  chunksAux_good _ _

theorem version_cmp_part_laws : CmpOK (fun _ : String => True) version_cmp_part := by
  constructor
  · intro a b
    exact cmpChunks_val _ _
  · intro a b
    exact cmpChunks_flip _ _
  · intro a b d _ _ _ h
    exact cmpChunks_laws.eqt _ _ _ (chunks_good a) (chunks_good b) (chunks_good d) h
  · intro a b d _ _ _ h1 h2
    exact cmpChunks_laws.ltt _ _ _ (chunks_good a) (chunks_good b) (chunks_good d) h1 h2

theorem CmpOK.comap {α β : Type} {c : β → β → Int} (h : CmpOK (fun _ : β => True) c)
    (f : α → β) : CmpOK (fun _ : α => True) (fun x y => c (f x) (f y)) := by
  constructor
  · intro a b
    exact h.val _ _
  · intro a b
    exact h.flip _ _
  · intro a b d _ _ _ hh
    exact h.eqt _ _ _ trivial trivial trivial hh
  · intro a b d _ _ _ h1 h2
    exact h.ltt _ _ _ trivial trivial trivial h1 h2

theorem debCmp_laws : CmpOK (fun _ : DebVersion => True) debCmp := by
  have h1 := icmp_laws.comap (fun x : DebVersion => (x.epoch : Int))
  have h2 := version_cmp_part_laws.comap (fun x : DebVersion => x.upstream_version)
  have h3 := version_cmp_part_laws.comap
    (fun x : DebVersion => x.debian_revision.getD "0")
  exact h1.lex (h2.lex h3)

theorem version_compare_ok {a b : String} {va vb : DebVersion}
    (ha : parseDebVersion a = some va) (hb : parseDebVersion b = some vb) :
    version_compare a b = .ok (debCmp va vb) := by
  unfold version_compare
  rw [ha, hb]

theorem version_compare_self (v : String) : version_compare v v ≠ .ok 1 := by
  unfold version_compare
  cases h : parseDebVersion v with
  | none => simp
  | some x =>
    have := debCmp_laws.rfl x
    simp [this]

/-- A successful comparison means both version strings are valid, and its
value is the `debCmp` of their parses. -/
theorem version_compare_ok_inv {a b : String} {r : Int}
    (h : version_compare a b = .ok r) :
    ∃ va vb, parseDebVersion a = some va ∧ parseDebVersion b = some vb ∧
      debCmp va vb = r := by
  unfold version_compare at h
  cases ha : parseDebVersion a with
  | none => rw [ha] at h; exact absurd h (by simp)
  | some va =>
    cases hb : parseDebVersion b with
    | none => rw [ha, hb] at h; exact absurd h (by simp)
    | some vb =>
      rw [ha, hb] at h
      simp only [Except.ok.injEq] at h
      exact ⟨va, vb, rfl, rfl, h⟩

/-! ### The running-maximum scan computes a Debian-maximal version -/

theorem exceptBindOk {ε α β : Type} (a : α) (f : α → Except ε β) :
    (Except.ok a >>= f : Except ε β) = f a := rfl

theorem exceptBindErr {ε α β : Type} (e : ε) (f : α → Except ε β) :
    (Except.error e >>= f : Except ε β) = Except.error e := rfl

theorem exceptPure {ε α : Type} (a : α) : (pure a : Except ε α) = Except.ok a := rfl

/-- What a successful run of the `_maxpackage_vers` scan guarantees: the
result is the starting value or one of the scanned attribute values, it is
valid whenever it is scanned or the start is valid, and nothing scanned
compares strictly greater than it. -/
theorem maxVersFold_spec {α : Type} (attr : α → Except PyErr String) :
    ∀ (l : List α) (h0 mv : String), maxVersFold attr l h0 = .ok mv →
      (mv = h0 ∨ ∃ y ∈ l, attr y = .ok mv) ∧
      version_compare h0 mv ≠ .ok 1 ∧
      (∀ y ∈ l, ∀ v, attr y = .ok v → version_compare v mv ≠ .ok 1) ∧
      (validVersion h0 = true → validVersion mv = true) := by
  intro l
  induction l with
  | nil =>
    intro h0 mv h
    unfold maxVersFold at h
    simp only [List.foldlM_nil] at h
    have h2 : Except.ok (ε := PyErr) h0 = Except.ok mv := h
    have hh : h0 = mv := by simpa using h2
    subst hh
    exact ⟨Or.inl rfl, version_compare_self h0, by simp, fun v => v⟩
  | cons c l ih =>
    intro h0 mv h
    unfold maxVersFold at h
    rw [List.foldlM_cons] at h
    cases hac : attr c with
    | error e =>
      rw [hac, exceptBindErr, exceptBindErr] at h
      exact absurd h (by simp)
    | ok v =>
      rw [hac, exceptBindOk] at h
      cases hvc : version_compare v h0 with
      | error e =>
        rw [hvc, exceptBindErr, exceptBindErr] at h
        exact absurd h (by simp)
      | ok r =>
        rw [hvc, exceptBindOk, exceptPure, exceptBindOk] at h
        obtain ⟨pv, p0, hpv, hp0, hr⟩ := version_compare_ok_inv hvc
        have hrest : maxVersFold attr l (if r = 1 then v else h0) = .ok mv := h
        obtain ⟨hA, hB, hC, hD⟩ := ih (if r = 1 then v else h0) mv hrest
        have hval1 : validVersion (if r = 1 then v else h0) = true := by
          unfold validVersion
          split
          · rw [hpv]
            rfl
          · rw [hp0]
            rfl
        have hvmv : validVersion mv = true := hD hval1
        obtain ⟨pmv, hpmv⟩ : ∃ pmv, parseDebVersion mv = some pmv := by
          unfold validVersion at hvmv
          cases e : parseDebVersion mv
          · rw [e] at hvmv
            simp at hvmv
          · exact ⟨_, rfl⟩
        -- the comparison of the new running maximum against the result
        have hB1 : debCmp (if r = 1 then pv else p0) pmv ≠ 1 := by
          intro e
          apply hB
          by_cases hr1 : r = 1
          · rw [if_pos hr1] at e ⊢
            rw [version_compare_ok hpv hpmv, e]
          · rw [if_neg hr1] at e ⊢
            rw [version_compare_ok hp0 hpmv, e]
        have hBval := debCmp_laws.val (if r = 1 then pv else p0) pmv
        refine ⟨?_, ?_, ?_, fun _ => hvmv⟩
        · rcases hA with hA | ⟨y, hy, hv⟩
          · by_cases hr1 : r = 1
            · rw [if_pos hr1] at hA
              exact Or.inr ⟨c, List.mem_cons_self c l, by rw [hac, hA]⟩
            · rw [if_neg hr1] at hA
              exact Or.inl hA
          · exact Or.inr ⟨y, List.mem_cons_of_mem c hy, hv⟩
        · -- the start h0 never compares strictly greater than the result
          rw [version_compare_ok hp0 hpmv]
          intro e
          simp only [Except.ok.injEq] at e
          by_cases hr1 : r = 1
          · -- h0 < v and v ≤ mv, hence h0 < mv: contradiction with e
            rw [if_pos hr1] at hB1 hBval
            have hflip := debCmp_laws.flip pv p0
            have hle := debCmp_laws.le_trans (a := p0) (b := pv) (d := pmv)
              trivial trivial trivial (by omega) (by omega)
            omega
          · rw [if_neg hr1] at hB1 hBval
            omega
        · intro y hy w hw
          rcases List.mem_cons.mp hy with e | e
          · subst e
            rw [hac] at hw
            have hwv : w = v := by simpa using hw.symm
            subst hwv
            rw [version_compare_ok hpv hpmv]
            intro e
            simp only [Except.ok.injEq] at e
            have hrval := debCmp_laws.val pv p0
            by_cases hr1 : r = 1
            · rw [if_pos hr1] at hB1 hBval
              omega
            · -- v ≤ h0 and h0 ≤ mv, hence v ≤ mv
              rw [if_neg hr1] at hB1 hBval
              have hle := debCmp_laws.le_trans (a := pv) (b := p0) (d := pmv)
                trivial trivial trivial (by omega) (by omega)
              omega
          · exact hC y e w hw

/-- Successful `_maxpackage_vers`: the result is one of the attribute values
and no attribute value compares strictly greater. -/
theorem _maxpackage_vers_spec {α : Type} (attr : α → Except PyErr String)
    (data : List α) (mv : String) (h : _maxpackage_vers data attr = .ok mv) :
    (∃ y ∈ data, attr y = .ok mv) ∧
    ∀ y ∈ data, ∀ v, attr y = .ok v → version_compare v mv ≠ .ok 1 := by
  match data with
  | [] =>
    simp only [_maxpackage_vers] at h
    exact absurd h (by simp)
  | [x] =>
    simp only [_maxpackage_vers] at h
    refine ⟨⟨x, List.mem_singleton.mpr rfl, h⟩, ?_⟩
    intro y hy v hv
    have : y = x := List.mem_singleton.mp hy
    subst this
    rw [h] at hv
    have : v = mv := by simpa using hv.symm
    subst this
    exact version_compare_self v
  | x :: y0 :: rest =>
    simp only [_maxpackage_vers] at h
    cases hax : attr x with
    | error e =>
      rw [hax, exceptBindErr] at h
      exact absurd h (by simp)
    | ok h0 =>
      rw [hax, exceptBindOk] at h
      obtain ⟨hA, hB, hC, _⟩ := maxVersFold_spec attr (y0 :: rest) h0 mv h
      constructor
      · rcases hA with hA | ⟨y, hy, hv⟩
        · exact ⟨x, List.mem_cons_self _ _, by rw [hax, hA]⟩
        · exact ⟨y, List.mem_cons_of_mem x hy, hv⟩
      · intro y hy v hv
        rcases List.mem_cons.mp hy with e | e
        · subst e
          rw [hax] at hv
          have : v = h0 := by simpa using hv.symm
          subst this
          exact hB
        · exact hC y e v hv

/-! ## Claim theorems -/

/-- C5: for every `Software` whose (non-empty) package list lets
`max_package_vers` succeed, the result is the `pkg_vers` of one of its
packages and no package's `pkg_vers` compares strictly greater under Debian
version comparison — the maximum is taken in Debian version order, not
lexically (see the witness with `"9"` vs `"10"`). -/
theorem C5_max_package_vers_debian_max (s : Software) (mv : String)
    (h : s.max_package_vers = .ok mv) :
    (∃ p ∈ s.packages, p.pkg_vers = mv) ∧
    ∀ p ∈ s.packages, version_compare p.pkg_vers mv ≠ .ok 1 := by
  unfold Software.max_package_vers at h
  obtain ⟨⟨y, hy, hv⟩, hmax⟩ := _maxpackage_vers_spec _ _ _ h
  exact ⟨⟨y, hy, by simpa using hv⟩, fun p hp => hmax p hp p.pkg_vers rfl⟩

theorem C5_witness :
    (∃ p ∈ (Software.mk "X" "1" [Package.mk "a" "9" "X" "1",
        Package.mk "b" "10" "X" "1"] []).packages, p.pkg_vers = "10") ∧
    ∀ p ∈ (Software.mk "X" "1" [Package.mk "a" "9" "X" "1",
        Package.mk "b" "10" "X" "1"] []).packages,
      version_compare p.pkg_vers "10" ≠ .ok 1 :=
  C5_max_package_vers_debian_max _ "10" (by decide)

/-- C6: constructing a `Software` with an empty code-package list and a
non-empty data-package list promotes the data packages into `packages` and
empties `data_packages`; with a non-empty code-package list both fields are
kept exactly as passed. -/
theorem C6_data_promotion (sw v : String) (ps ds : List Package) :
    (ps = [] → ds ≠ [] → Software.make sw v ps ds = .ok ⟨sw, v, ds, []⟩) ∧
    (ps ≠ [] → Software.make sw v ps ds = .ok ⟨sw, v, ps, ds⟩) := by
  constructor
  · intro h1 h2
    subst h1
    have he : ds.isEmpty = false := by
      cases ds with
      | nil => exact absurd rfl h2
      | cons a t => rfl
    simp [Software.make, he]
  · intro h1
    have hl : ¬ps.length = 0 := by
      simpa [List.length_eq_zero] using h1
    simp [Software.make, hl]

theorem C6_witness :
    Software.make "X" "1" [] [Package.mk "d-data" "1" "X" "1"]
        = .ok ⟨"X", "1", [Package.mk "d-data" "1" "X" "1"], []⟩ ∧
    Software.make "X" "1" [Package.mk "c" "1" "X" "1"] [Package.mk "d-data" "1" "X" "1"]
        = .ok ⟨"X", "1", [Package.mk "c" "1" "X" "1"], [Package.mk "d-data" "1" "X" "1"]⟩ :=
  ⟨(C6_data_promotion "X" "1" [] [Package.mk "d-data" "1" "X" "1"]).1 rfl (by decide),
   (C6_data_promotion "X" "1" [Package.mk "c" "1" "X" "1"]
      [Package.mk "d-data" "1" "X" "1"]).2 (by decide)⟩

/-- C9: constructing a `Software` with both package lists empty always fails
with the promotion assertion; when at least one `Package` is supplied between
the two lists, construction succeeds and the resulting `packages` field is
non-empty. -/
theorem C9_construction_nonempty (sw v : String) (ps ds : List Package) :
    (Software.make sw v [] [] = .error .assertionError) ∧
    (ps ++ ds ≠ [] → ∃ s, Software.make sw v ps ds = .ok s ∧ s.packages ≠ []) := by
  constructor
  · rfl
  · intro h
    by_cases hp : ps.length = 0
    · have hps : ps = [] := List.length_eq_zero.mp hp
      subst hps
      have hds : ds ≠ [] := by simpa using h
      have he : ds.isEmpty = false := by
        cases ds with
        | nil => exact absurd rfl hds
        | cons a t => rfl
      exact ⟨⟨sw, v, ds, []⟩, by simp [Software.make, he], hds⟩
    · refine ⟨⟨sw, v, ps, ds⟩, ?_, by simpa [List.length_eq_zero] using hp⟩
      unfold Software.make
      rw [if_neg hp]

theorem C9_witness :
    (Software.make "X" "1" [] [] = .error .assertionError) ∧
    ∃ s, Software.make "X" "1" [Package.mk "c" "1" "X" "1"] [] = .ok s ∧
      s.packages ≠ [] :=
  ⟨(C9_construction_nonempty "X" "1" [] []).1,
   (C9_construction_nonempty "X" "1" [Package.mk "c" "1" "X" "1"] []).2 (by decide)⟩

/-- C10: `Package.parse` checks the presence of only `Version`,
`Nmrbox-Software` and `Nmrbox-Version`; a mapping containing those three but
no `Package` key does not return `None` — constructing the `Package` fails
with a `KeyError` on `"Package"`. -/
theorem C10_parse_package_keyerror (d : List (String × String))
    (hv : (alookup d "Version").isSome = true)
    (hs : (alookup d "Nmrbox-Software").isSome = true)
    (hn : (alookup d "Nmrbox-Version").isSome = true)
    (hp : alookup d "Package" = none) :
    Package.parse d = .error (.keyError "Package") := by
  unfold Package.parse
  rw [if_pos (by simp [Package.FIELDS, hv, hs, hn])]
  unfold Package.ofData
  rw [hp]
  rfl

theorem C10_witness :
    Package.parse [("Version", "1.0"), ("Nmrbox-Software", "x"), ("Nmrbox-Version", "1")]
      = .error (.keyError "Package") :=
  C10_parse_package_keyerror _ (by decide) (by decide) (by decide) (by decide)

/-- C8 counterexample: a field mapping with all three required fields but no
`Package` field makes `Package.parse` fail with a `KeyError` — no `Package`
is yielded even though the three fields are present, refuting "yields a
Package exactly when all of the package-version, software-family and
software-version fields are present". -/
theorem C8_counterexample :
    Package.parse [("Version", "1.0"), ("Nmrbox-Software", "x"), ("Nmrbox-Version", "1")]
        = .error (.keyError "Package") ∧
    (Package.parse [("Version", "1.0"), ("Nmrbox-Software", "x"), ("Nmrbox-Version", "1")]
        ≠ .ok none) := by decide

/-- C8 amended: when any of the three required fields is missing,
`Package.parse` yields `None` and raises no error; when all three are
present it yields a `Package` provided the mapping also contains the
`Package` field (as every bag flushed by the line loop does), and fails with
a `KeyError` on `"Package"` otherwise. -/
theorem C8_parse_amended (d : List (String × String)) :
    ((∃ f ∈ Package.FIELDS, alookup d f = none) → Package.parse d = .ok none) ∧
    ((∀ f ∈ Package.FIELDS, (alookup d f).isSome = true) →
      ∀ pn, alookup d "Package" = some pn → ∃ p, Package.parse d = .ok (some p)) ∧
    ((∀ f ∈ Package.FIELDS, (alookup d f).isSome = true) →
      alookup d "Package" = none → Package.parse d = .error (.keyError "Package")) := by
  refine ⟨?_, ?_, ?_⟩
  · intro ⟨f, hf, hnone⟩
    unfold Package.parse
    rw [if_neg]
    intro hall
    rw [List.all_eq_true] at hall
    have := hall f hf
    rw [hnone] at this
    simp at this
  · intro hall pn hpn
    have hv := hall "Version" (by simp [Package.FIELDS])
    have hs := hall "Nmrbox-Software" (by simp [Package.FIELDS])
    have hn := hall "Nmrbox-Version" (by simp [Package.FIELDS])
    obtain ⟨v, hv⟩ := Option.isSome_iff_exists.mp hv
    obtain ⟨s, hs⟩ := Option.isSome_iff_exists.mp hs
    obtain ⟨n, hn⟩ := Option.isSome_iff_exists.mp hn
    unfold Package.parse
    rw [if_pos (by simp [Package.FIELDS, hv, hs, hn])]
    unfold Package.ofData
    rw [hpn, hv, hs, hn]
    exact ⟨_, rfl⟩
  · intro hall hp
    have hv := hall "Version" (by simp [Package.FIELDS])
    have hs := hall "Nmrbox-Software" (by simp [Package.FIELDS])
    have hn := hall "Nmrbox-Version" (by simp [Package.FIELDS])
    unfold Package.parse
    rw [if_pos (by simp [Package.FIELDS, hv, hs, hn])]
    unfold Package.ofData
    rw [hp]
    rfl

theorem C8_amended_witness :
    Package.parse [("Version", "1.0")] = .ok none ∧
    (∃ p, Package.parse [("Package", "p"), ("Version", "1.0"),
      ("Nmrbox-Software", "x"), ("Nmrbox-Version", "1")] = .ok (some p)) ∧
    Package.parse [("Version", "2.0"), ("Nmrbox-Software", "y"), ("Nmrbox-Version", "3")]
      = .error (.keyError "Package") :=
  ⟨(C8_parse_amended _).1 ⟨"Nmrbox-Software", by decide, by decide⟩,
   (C8_parse_amended _).2.1 (by decide) "p" (by decide),
   (C8_parse_amended _).2.2 (by decide) (by decide)⟩

/-- C3 counterexample: a list with two same-named Debian-version-equal
packages (`"1.0"` and `"1.00"`) collapses successfully — returning the
intervening strictly greater `"2.0"` entry — instead of failing fatally,
refuting the claim that any version-equal same-named pair is fatal. -/
theorem C3_counterexample :
    version_compare "1.00" "1.0" = .ok 0 ∧
    _maxpackage [Package.mk "p" "1.0" "X" "1", Package.mk "p" "2.0" "X" "1",
        Package.mk "p" "1.00" "X" "1"]
      = .ok [Package.mk "p" "2.0" "X" "1"] := by decide

/-- C3 amended: the collapse fails fatally when a package's version compares
Debian-equal to the running maximum of its name group at the moment it is
scanned — in particular whenever the group consists of exactly two same-named
version-equal packages; an equal pair separated by a strictly greater
intervening version is silently tolerated. -/
theorem C3_running_max_equal_fatal (p1 p2 : Package) (hn : p1.package = p2.package)
    (he : version_compare p2.pkg_vers p1.pkg_vers = .ok 0) :
    _maxpackage [p1, p2] = .error .assertionError := by
  have hscan : maxPkgScan [p2] p1 = .error .assertionError := by
    unfold maxPkgScan
    simp only [List.foldlM_cons, List.foldlM_nil, he, exceptBindOk]
    rfl
  unfold _maxpackage
  rw [if_neg (by simp), if_neg (by simp)]
  have hg : List.foldl (fun acc d => dictAppend acc d.package d) [] [p1, p2]
      = [(p1.package, [p1, p2])] := by
    simp only [List.foldl, dictAppend]
    rw [if_pos hn]
    rfl
  rw [hg]
  unfold maxPkgCollect
  rw [List.foldlM_cons]
  have hgroup : maxPkgGroup [] (p1.package, [p1, p2]) = .error .assertionError := by
    show (maxPkgScan [p2] p1 >>= fun latest =>
      (pure ([] ++ [latest]) : Except PyErr (List Package))) = _
    rw [hscan, exceptBindErr]
  rw [hgroup, exceptBindErr]

theorem C3_witness :
    _maxpackage [Package.mk "p" "1.0" "X" "1", Package.mk "p" "1.00" "X" "1"]
      = .error .assertionError :=
  C3_running_max_equal_fatal _ _ rfl (by decide)

/-- C1: the line loop of `parse_nmrbox_list` never flushes the stanza bag
still open at end-of-stream, so the last stanza of the file is dropped: one
well-formed stanza yields no packages, and two well-formed stanzas yield only
the first one. -/
theorem C1_last_stanza_dropped :
    scanLines ["Package: pkg-a", "Version: 1.0", "Nmrbox-Software: xplor",
      "Nmrbox-Version: 2"] = .ok [] ∧
    scanLines ["Package: pkg-a", "Version: 1.0", "Nmrbox-Software: xplor",
      "Nmrbox-Version: 2", "Package: pkg-b", "Version: 2.0",
      "Nmrbox-Software: xplor", "Nmrbox-Version: 3"]
      = .ok [("XPLOR", [Package.mk "pkg-a" "1.0" "XPLOR" "2"])] := by decide

/-- C4 counterexample: an index built with software versions first seen in
the order `"2.0"`, `"1.0"` reports exactly that order in the unknown-version
error, although `"2.0"` compares strictly greater than the `"1.0"` that
follows it — the carried list is unsorted, refuting "the sorted list of the
versions actually available". -/
theorem C4_counterexample :
    build_index [Package.mk "a" "1" "X" "2.0", Package.mk "b" "1" "X" "1.0"]
      = .ok [("X", [("2.0", Software.mk "X" "2.0" [Package.mk "a" "1" "X" "2.0"] []),
                    ("1.0", Software.mk "X" "1.0" [Package.mk "b" "1" "X" "1.0"] [])])] ∧
    resolve_software
        [("X", [("2.0", Software.mk "X" "2.0" [Package.mk "a" "1" "X" "2.0"] []),
                ("1.0", Software.mk "X" "1.0" [Package.mk "b" "1" "X" "1.0"] [])])]
        "X" (some "9.9")
      = .error (.unknownVersion "9.9" "X" ["2.0", "1.0"]) ∧
    version_compare "2.0" "1.0" = .ok 1 := by decide

/-- C4 amended: resolving a request whose family is present but whose version
is absent fails with the requested version and the list of that family's
available versions in index insertion order (the order the versions were
first encountered), not sorted. -/
theorem C4_unknown_version_insertion_order (inventory : Index) (s vstr : String)
    (available : List (String × Software))
    (hfam : alookup inventory (pyUpper s) = some available)
    (hvers : alookup available vstr = none) :
    resolve_software inventory s (some vstr)
      = .error (.unknownVersion vstr (pyUpper s) (available.map Prod.fst)) := by
  unfold resolve_software
  simp only [hfam, hvers]

theorem C4_witness :
    resolve_software [("Y", [("3.0", Software.mk "Y" "3.0" [Package.mk "c" "1" "Y" "3.0"] [])])]
        "y" (some "9.9")
      = .error (.unknownVersion "9.9" "Y" ["3.0"]) :=
  C4_unknown_version_insertion_order _ "y" "9.9"
    [("3.0", Software.mk "Y" "3.0" [Package.mk "c" "1" "Y" "3.0"] [])]
    (by decide) (by decide)

/-! ### Success of the latest-version computation on valid inputs -/

theorem valid_version_compare {a b : String} (ha : validVersion a = true)
    (hb : validVersion b = true) : ∃ r, version_compare a b = .ok r := by
  unfold validVersion at ha hb
  unfold version_compare
  cases ea : parseDebVersion a with
  | none => rw [ea] at ha; simp at ha
  | some va =>
    cases eb : parseDebVersion b with
    | none => rw [eb] at hb; simp at hb
    | some vb => exact ⟨_, rfl⟩

theorem maxVersFold_ok {α : Type} (attr : α → Except PyErr String) :
    ∀ (l : List α) (h0 : String), validVersion h0 = true →
      (∀ c ∈ l, ∃ v, attr c = .ok v ∧ validVersion v = true) →
      ∃ mv, maxVersFold attr l h0 = .ok mv := by
  intro l
  induction l with
  | nil =>
    intro h0 _ _
    exact ⟨h0, rfl⟩
  | cons c l ih =>
    intro h0 hv0 hva
    obtain ⟨v, hav, hvv⟩ := hva c (List.mem_cons_self c l)
    obtain ⟨r, hr⟩ := valid_version_compare hvv hv0
    have hval1 : validVersion (if r = 1 then v else h0) = true := by
      split
      · exact hvv
      · exact hv0
    obtain ⟨mv, hmv⟩ := ih (if r = 1 then v else h0) hval1
      (fun c hc => hva c (List.mem_cons_of_mem _ hc))
    refine ⟨mv, ?_⟩
    unfold maxVersFold at hmv ⊢
    rw [List.foldlM_cons, hav, exceptBindOk, hr, exceptBindOk, exceptPure, exceptBindOk]
    exact hmv

theorem _maxpackage_vers_ok {α : Type} (attr : α → Except PyErr String)
    (data : List α) (hne : data ≠ [])
    (hva : ∀ c ∈ data, ∃ v, attr c = .ok v ∧ validVersion v = true) :
    ∃ mv, _maxpackage_vers data attr = .ok mv := by
  match data with
  | [] => exact absurd rfl hne
  | [x] =>
    obtain ⟨v, hav, _⟩ := hva x (List.mem_cons_self x [])
    exact ⟨v, by simp only [_maxpackage_vers]; exact hav⟩
  | x :: y0 :: rest =>
    obtain ⟨h0, hax, hv0⟩ := hva x (List.mem_cons_self _ _)
    obtain ⟨mv, hmv⟩ := maxVersFold_ok attr (y0 :: rest) h0 hv0
      (fun c hc => hva c (List.mem_cons_of_mem _ hc))
    refine ⟨mv, ?_⟩
    simp only [_maxpackage_vers]
    rw [hax, exceptBindOk]
    exact hmv

theorem max_package_vers_ok {s : Software} (hne : s.packages ≠ [])
    (hval : ∀ p ∈ s.packages, validVersion p.pkg_vers = true) :
    ∃ v, s.max_package_vers = .ok v ∧ validVersion v = true := by
  obtain ⟨v, hv⟩ := _maxpackage_vers_ok (fun p : Package => .ok p.pkg_vers) s.packages hne
    (fun p hp => ⟨p.pkg_vers, rfl, hval p hp⟩)
  refine ⟨v, hv, ?_⟩
  obtain ⟨⟨y, hy, hav⟩, _⟩ := _maxpackage_vers_spec _ _ _ hv
  have : y.pkg_vers = v := by simpa using hav
  rw [← this]
  exact hval y hy

/-! ### The `latest_packages` filter -/

/-- Every element of a successful `latestFilter` run comes from the
accumulator or from the scanned data. -/
theorem latestFilter_sub (mv : String) :
    ∀ (data acc res : List Software), latestFilter mv data acc = .ok res →
      ∀ t ∈ res, t ∈ acc ∨ t ∈ data := by
  intro data
  induction data with
  | nil =>
    intro acc res h t ht
    unfold latestFilter at h
    simp only [List.foldlM_nil] at h
    have h2 : Except.ok (ε := PyErr) acc = Except.ok res := h
    have : acc = res := by simpa using h2
    subst this
    exact Or.inl ht
  | cons s data ih =>
    intro acc res h t ht
    unfold latestFilter at h
    rw [List.foldlM_cons] at h
    cases hsv : s.max_package_vers with
    | error e =>
      rw [show latestFilterStep mv acc s = .error e by
        unfold latestFilterStep
        rw [hsv, exceptBindErr], exceptBindErr] at h
      exact absurd h (by simp)
    | ok v =>
      rw [show latestFilterStep mv acc s
          = .ok (if v = mv then acc ++ [s] else acc) by
        unfold latestFilterStep
        rw [hsv, exceptBindOk, exceptPure], exceptBindOk] at h
      rcases ih _ res h t ht with hin | hin
      · split at hin
        · rcases List.mem_append.mp hin with hin | hin
          · exact Or.inl hin
          · have : t = s := List.mem_singleton.mp hin
            subst this
            exact Or.inr (List.mem_cons_self t data)
        · exact Or.inl hin
      · exact Or.inr (List.mem_cons_of_mem s hin)

/-- Membership in a successful `latestFilter` run: exactly the accumulator
plus the scanned entries whose `max_package_vers` is string-equal to `mv`. -/
theorem latestFilter_spec (mv : String) :
    ∀ (data acc res : List Software), latestFilter mv data acc = .ok res →
      ∀ t, t ∈ res ↔ (t ∈ acc ∨ (t ∈ data ∧ t.max_package_vers = .ok mv)) := by
  intro data
  induction data with
  | nil =>
    intro acc res h t
    unfold latestFilter at h
    simp only [List.foldlM_nil] at h
    have h2 : Except.ok (ε := PyErr) acc = Except.ok res := h
    have : acc = res := by simpa using h2
    subst this
    simp
  | cons s data ih =>
    intro acc res h t
    unfold latestFilter at h
    rw [List.foldlM_cons] at h
    cases hsv : s.max_package_vers with
    | error e =>
      rw [show latestFilterStep mv acc s = .error e by
        unfold latestFilterStep
        rw [hsv, exceptBindErr], exceptBindErr] at h
      exact absurd h (by simp)
    | ok v =>
      rw [show latestFilterStep mv acc s
          = .ok (if v = mv then acc ++ [s] else acc) by
        unfold latestFilterStep
        rw [hsv, exceptBindOk, exceptPure], exceptBindOk] at h
      have hrec := ih _ res h t
      by_cases hvm : v = mv
      · rw [if_pos hvm] at hrec
        rw [hrec]
        constructor
        · intro hin
          rcases hin with hin | ⟨hd, hmv⟩
          · rcases List.mem_append.mp hin with hin | hin
            · exact Or.inl hin
            · have he : t = s := List.mem_singleton.mp hin
              subst he
              exact Or.inr ⟨List.mem_cons_self t data, by rw [hsv, hvm]⟩
          · exact Or.inr ⟨List.mem_cons_of_mem s hd, hmv⟩
        · intro hin
          rcases hin with hin | ⟨hd, hmv⟩
          · exact Or.inl (List.mem_append.mpr (Or.inl hin))
          · rcases List.mem_cons.mp hd with he | hd2
            · subst he
              exact Or.inl (List.mem_append.mpr (Or.inr (List.mem_singleton.mpr rfl)))
            · exact Or.inr ⟨hd2, hmv⟩
      · rw [if_neg hvm] at hrec
        rw [hrec]
        constructor
        · intro hin
          rcases hin with hin | ⟨hd, hmv⟩
          · exact Or.inl hin
          · exact Or.inr ⟨List.mem_cons_of_mem s hd, hmv⟩
        · intro hin
          rcases hin with hin | ⟨hd, hmv⟩
          · exact Or.inl hin
          · rcases List.mem_cons.mp hd with he | hd2
            · subst he
              rw [hsv] at hmv
              have : v = mv := by simpa using hmv
              exact absurd this hvm
            · exact Or.inr ⟨hd2, hmv⟩

theorem latestFilter_ok (mv : String) :
    ∀ (data acc : List Software), (∀ s ∈ data, ∃ v, s.max_package_vers = .ok v) →
      ∃ res, latestFilter mv data acc = .ok res := by
  intro data
  induction data with
  | nil =>
    intro acc _
    exact ⟨acc, rfl⟩
  | cons s data ih =>
    intro acc hv
    obtain ⟨v, hsv⟩ := hv s (List.mem_cons_self s data)
    obtain ⟨res, hres⟩ := ih (if v = mv then acc ++ [s] else acc)
      (fun x hx => hv x (List.mem_cons_of_mem s hx))
    refine ⟨res, ?_⟩
    unfold latestFilter at hres ⊢
    rw [List.foldlM_cons,
      show latestFilterStep mv acc s = .ok (if v = mv then acc ++ [s] else acc) by
        unfold latestFilterStep
        rw [hsv, exceptBindOk, exceptPure], exceptBindOk]
    exact hres

/-- C2 counterexample: the built index for family `X` holds two entries whose
maximum package versions `"1.0"` and `"1.00"` compare Debian-equal — both are
the global Debian maximum — yet omitted-version resolution returns only the
first entry, refuting "every Software entry whose max_package_version equals
that maximum (by Debian comparison) is returned". -/
theorem C2_counterexample :
    build_index [Package.mk "a" "1.0" "X" "1", Package.mk "b" "1.00" "X" "2"]
      = .ok [("X", [("1", Software.mk "X" "1" [Package.mk "a" "1.0" "X" "1"] []),
                    ("2", Software.mk "X" "2" [Package.mk "b" "1.00" "X" "2"] [])])] ∧
    (Software.mk "X" "1" [Package.mk "a" "1.0" "X" "1"] []).max_package_vers
      = .ok "1.0" ∧
    (Software.mk "X" "2" [Package.mk "b" "1.00" "X" "2"] []).max_package_vers
      = .ok "1.00" ∧
    version_compare "1.00" "1.0" = .ok 0 ∧
    resolve_software [("X", [("1", Software.mk "X" "1" [Package.mk "a" "1.0" "X" "1"] []),
                             ("2", Software.mk "X" "2" [Package.mk "b" "1.00" "X" "2"] [])])]
        "X" none
      = .ok [Software.mk "X" "1" [Package.mk "a" "1.0" "X" "1"] []] := by decide

/-- C2 amended: with every entry carrying a non-empty package list of valid
Debian versions, omitted-version resolution computes a maximum `mv` that is
attained by some entry and Debian-maximal (no entry's maximum compares
strictly greater), and returns exactly the entries whose
`max_package_vers` is **string-equal** to `mv` — all string-equal ties are
returned, but entries Debian-equal yet textually different from `mv` are
omitted. -/
theorem C2_latest_packages_string_ties (data : List Software) (hne : data ≠ [])
    (hpk : ∀ s ∈ data, s.packages ≠ [] ∧
      ∀ p ∈ s.packages, validVersion p.pkg_vers = true) :
    ∃ mv res, Software.latest_packages data = .ok res ∧
      (∃ s ∈ data, s.max_package_vers = .ok mv) ∧
      (∀ s ∈ data, ∀ v, s.max_package_vers = .ok v → version_compare v mv ≠ .ok 1) ∧
      (∀ t, t ∈ res ↔ (t ∈ data ∧ t.max_package_vers = .ok mv)) := by
  have hok : ∀ s ∈ data, ∃ v, s.max_package_vers = .ok v ∧ validVersion v = true :=
    fun s hs => max_package_vers_ok (hpk s hs).1 (hpk s hs).2
  obtain ⟨mv, hmv⟩ := _maxpackage_vers_ok Software.max_package_vers data hne hok
  obtain ⟨res, hres⟩ := latestFilter_ok mv data []
    (fun s hs => (hok s hs).elim (fun v hv => ⟨v, hv.1⟩))
  obtain ⟨hattained, hmax⟩ := _maxpackage_vers_spec Software.max_package_vers data mv hmv
  refine ⟨mv, res, ?_, hattained, hmax, ?_⟩
  · unfold Software.latest_packages
    rw [hmv, exceptBindOk]
    exact hres
  · intro t
    rw [latestFilter_spec mv data [] res hres t]
    simp

theorem C2_witness :
    ∃ mv res, Software.latest_packages
        [Software.mk "X" "1" [Package.mk "a" "1.0" "X" "1"] [],
         Software.mk "X" "2" [Package.mk "b" "2.0" "X" "2"] []] = .ok res ∧
      (∃ s ∈ [Software.mk "X" "1" [Package.mk "a" "1.0" "X" "1"] [],
              Software.mk "X" "2" [Package.mk "b" "2.0" "X" "2"] []],
        s.max_package_vers = .ok mv) ∧
      (∀ s ∈ [Software.mk "X" "1" [Package.mk "a" "1.0" "X" "1"] [],
              Software.mk "X" "2" [Package.mk "b" "2.0" "X" "2"] []],
        ∀ v, s.max_package_vers = .ok v → version_compare v mv ≠ .ok 1) ∧
      (∀ t, t ∈ res ↔
        (t ∈ [Software.mk "X" "1" [Package.mk "a" "1.0" "X" "1"] [],
              Software.mk "X" "2" [Package.mk "b" "2.0" "X" "2"] []] ∧
          t.max_package_vers = .ok mv)) :=
  C2_latest_packages_string_ties _ (by decide) (by decide)

/-! ### Membership facts for the index builder (UTILITY exclusion) -/

theorem dictAppend_mem {β : Type} :
    ∀ (d : List (String × List β)) (k : String) (x : β) (k2 : String) (xs : List β),
      (k2, xs) ∈ dictAppend d k x → ∀ y ∈ xs,
        (∃ xs2, (k2, xs2) ∈ d ∧ y ∈ xs2) ∨ (y = x ∧ k2 = k) := by
  intro d
  induction d with
  | nil =>
    intro k x k2 xs h y hy
    unfold dictAppend at h
    have he := List.mem_singleton.mp h
    simp only [Prod.mk.injEq] at he
    obtain ⟨rfl, rfl⟩ := he
    exact Or.inr ⟨List.mem_singleton.mp hy, rfl⟩
  | cons hd rest ih =>
    intro k x k2 xs h y hy
    obtain ⟨k1, xs1⟩ := hd
    unfold dictAppend at h
    by_cases hk : k1 = k
    · rw [if_pos hk] at h
      rcases List.mem_cons.mp h with he | hin
      · simp only [Prod.mk.injEq] at he
        obtain ⟨rfl, rfl⟩ := he
        rcases List.mem_append.mp hy with hy2 | hy2
        · exact Or.inl ⟨xs1, List.mem_cons_self _ _, hy2⟩
        · exact Or.inr ⟨List.mem_singleton.mp hy2, hk⟩
      · exact Or.inl ⟨xs, List.mem_cons_of_mem _ hin, hy⟩
    · rw [if_neg hk] at h
      rcases List.mem_cons.mp h with he | hin
      · simp only [Prod.mk.injEq] at he
        obtain ⟨rfl, rfl⟩ := he
        exact Or.inl ⟨_, List.mem_cons_self _ _, hy⟩
      · rcases ih k x k2 xs hin y hy with ⟨xs2, h2, hy2⟩ | h2
        · exact Or.inl ⟨xs2, List.mem_cons_of_mem _ h2, hy2⟩
        · exact Or.inr h2

theorem dictSet_mem {β : Type} :
    ∀ (d : List (String × β)) (k : String) (x : β) (k2 : String) (v : β),
      (k2, v) ∈ dictSet d k x → (k2, v) ∈ d ∨ (v = x ∧ k2 = k) := by
  intro d
  induction d with
  | nil =>
    intro k x k2 v h
    unfold dictSet at h
    have he := List.mem_singleton.mp h
    simp only [Prod.mk.injEq] at he
    exact Or.inr ⟨he.2, he.1⟩
  | cons hd rest ih =>
    intro k x k2 v h
    obtain ⟨k1, v1⟩ := hd
    unfold dictSet at h
    by_cases hk : k1 = k
    · rw [if_pos hk] at h
      rcases List.mem_cons.mp h with he | hin
      · simp only [Prod.mk.injEq] at he
        exact Or.inr ⟨he.2, he.1⟩
      · exact Or.inl (List.mem_cons_of_mem _ hin)
    · rw [if_neg hk] at h
      rcases List.mem_cons.mp h with he | hin
      · exact Or.inl (he ▸ List.mem_cons_self _ _)
      · rcases ih k x k2 v hin with h2 | h2
        · exact Or.inl (List.mem_cons_of_mem _ h2)
        · exact Or.inr h2

/-- Invariant of the pure grouping folds (`packages[p.software].append(p)`
and `pkg_latest[d.package].append(d)`): every grouped element satisfies the
element predicate and matches its group key. -/
theorem groupFold_inv {β : Type} (key : β → String) (Q : β → Prop) :
    ∀ (ps : List β) (acc : List (String × List β)),
      (∀ p ∈ ps, Q p) →
      (∀ k xs, (k, xs) ∈ acc → ∀ p ∈ xs, Q p ∧ key p = k) →
      ∀ k xs, (k, xs) ∈ ps.foldl (fun acc p => dictAppend acc (key p) p) acc →
        ∀ p ∈ xs, Q p ∧ key p = k := by
  intro ps
  induction ps with
  | nil =>
    intro acc _ hacc k xs h p hp
    exact hacc k xs h p hp
  | cons p0 ps ih =>
    intro acc hps hacc k xs h p hp
    rw [List.foldl_cons] at h
    refine ih (dictAppend acc (key p0) p0) (fun q hq => hps q (List.mem_cons_of_mem _ hq))
      ?_ k xs h p hp
    intro k2 xs2 h2 q hq
    rcases dictAppend_mem acc (key p0) p0 k2 xs2 h2 q hq with ⟨xs3, h3, hq3⟩ | ⟨he, hk⟩
    · exact hacc k2 xs3 h3 q hq3
    · subst he
      exact ⟨hps q (List.mem_cons_self _ _), hk.symm⟩

theorem maxPkgScan_mem :
    ∀ (rest : List Package) (latest res : Package), maxPkgScan rest latest = .ok res →
      res = latest ∨ res ∈ rest := by
  intro rest
  induction rest with
  | nil =>
    intro latest res h
    unfold maxPkgScan at h
    simp only [List.foldlM_nil] at h
    have h2 : Except.ok (ε := PyErr) latest = Except.ok res := h
    exact Or.inl (by simpa using h2.symm)
  | cons p rest ih =>
    intro latest res h
    unfold maxPkgScan at h
    rw [List.foldlM_cons] at h
    cases hc : version_compare p.pkg_vers latest.pkg_vers with
    | error e =>
      rw [hc, exceptBindErr, exceptBindErr] at h
      exact absurd h (by simp)
    | ok r =>
      rw [hc, exceptBindOk] at h
      by_cases h0 : r = 0
      · rw [if_pos h0, exceptBindErr] at h
        exact absurd h (by simp)
      · rw [if_neg h0] at h
        by_cases h1 : r = 1
        · rw [if_pos h1, exceptPure, exceptBindOk] at h
          rcases ih p res h with he | hin
          · exact Or.inr (he ▸ List.mem_cons_self _ _)
          · exact Or.inr (List.mem_cons_of_mem _ hin)
        · rw [if_neg h1, exceptPure, exceptBindOk] at h
          rcases ih latest res h with he | hin
          · exact Or.inl he
          · exact Or.inr (List.mem_cons_of_mem _ hin)

theorem maxPkgCollect_mem :
    ∀ (groups : List (String × List Package)) (acc res : List Package),
      maxPkgCollect groups acc = .ok res →
      ∀ q ∈ res, q ∈ acc ∨ ∃ k xs, (k, xs) ∈ groups ∧ q ∈ xs := by
  intro groups
  induction groups with
  | nil =>
    intro acc res h q hq
    unfold maxPkgCollect at h
    simp only [List.foldlM_nil] at h
    have h2 : Except.ok (ε := PyErr) acc = Except.ok res := h
    have : acc = res := by simpa using h2
    subst this
    exact Or.inl hq
  | cons kv groups ih =>
    intro acc res h q hq
    unfold maxPkgCollect at h
    rw [List.foldlM_cons] at h
    obtain ⟨k0, xs0⟩ := kv
    match hxs : xs0 with
    | [] =>
      rw [show maxPkgGroup acc (k0, []) = .error .assertionError from rfl,
        exceptBindErr] at h
      exact absurd h (by simp)
    | [v] =>
      rw [show maxPkgGroup acc (k0, [v]) = .ok (acc ++ [v]) from rfl,
        exceptBindOk] at h
      rcases ih (acc ++ [v]) res h q hq with hin | ⟨k2, xs2, h2, hq2⟩
      · rcases List.mem_append.mp hin with hin2 | hin2
        · exact Or.inl hin2
        · exact Or.inr ⟨k0, [v], List.mem_cons_self _ _, hin2⟩
      · exact Or.inr ⟨k2, xs2, List.mem_cons_of_mem _ h2, hq2⟩
    | v :: v2 :: vrest =>
      cases hscan : maxPkgScan (v2 :: vrest) v with
      | error e =>
        rw [show maxPkgGroup acc (k0, v :: v2 :: vrest)
            = (maxPkgScan (v2 :: vrest) v >>= fun latest => pure (acc ++ [latest]))
          from rfl, hscan, exceptBindErr, exceptBindErr] at h
        exact absurd h (by simp)
      | ok latest =>
        rw [show maxPkgGroup acc (k0, v :: v2 :: vrest)
            = (maxPkgScan (v2 :: vrest) v >>= fun latest => pure (acc ++ [latest]))
          from rfl, hscan, exceptBindOk, exceptPure, exceptBindOk] at h
        rcases ih (acc ++ [latest]) res h q hq with hin | ⟨k2, xs2, h2, hq2⟩
        · rcases List.mem_append.mp hin with hin2 | hin2
          · exact Or.inl hin2
          · have he : q = latest := List.mem_singleton.mp hin2
            subst he
            rcases maxPkgScan_mem (v2 :: vrest) v q hscan with he2 | hin3
            · exact Or.inr ⟨k0, _, List.mem_cons_self _ _, he2 ▸ List.mem_cons_self _ _⟩
            · exact Or.inr ⟨k0, _, List.mem_cons_self _ _, List.mem_cons_of_mem _ hin3⟩
        · exact Or.inr ⟨k2, xs2, List.mem_cons_of_mem _ h2, hq2⟩

/-- Every package returned by `_maxpackage` is one of its inputs. -/
theorem _maxpackage_mem (data res : List Package) (h : _maxpackage data = .ok res) :
    ∀ q ∈ res, q ∈ data := by
  unfold _maxpackage at h
  by_cases h0 : data.length = 0
  · rw [if_pos h0] at h
    have : data = res := by simpa using h
    subst this
    exact fun q hq => hq
  · rw [if_neg h0] at h
    by_cases h1 : data.length = 1
    · rw [if_pos h1] at h
      have : data = res := by simpa using h
      subst this
      exact fun q hq => hq
    · rw [if_neg h1] at h
      intro q hq
      rcases maxPkgCollect_mem _ [] res h q hq with hin | ⟨k, xs, hk, hq2⟩
      · exact absurd hin (List.not_mem_nil q)
      · exact (groupFold_inv (fun d => d.package) (fun p => p ∈ data) data []
          (fun p hp => hp) (fun k2 xs2 h2 => absurd h2 (List.not_mem_nil _))
          k xs hk q hq2).1

/-- The fields of a constructed `Software` come from the passed lists. -/
theorem software_make_mem {sw v : String} {code data : List Package} {s : Software}
    (h : Software.make sw v code data = .ok s) :
    (∀ q ∈ s.packages, q ∈ code ∨ q ∈ data) ∧ ∀ q ∈ s.data_packages, q ∈ data := by
  unfold Software.make at h
  by_cases h0 : code.length = 0
  · rw [if_pos h0] at h
    by_cases he : data.isEmpty = true
    · rw [if_pos he] at h
      exact absurd h (by simp)
    · rw [if_neg he] at h
      have h2 : Except.ok (ε := PyErr) (Software.mk sw v data []) = Except.ok s := h
      have : Software.mk sw v data [] = s := by simpa using h2
      subst this
      exact ⟨fun q hq => Or.inr hq, fun q hq => absurd hq (List.not_mem_nil q)⟩
  · rw [if_neg h0] at h
    have h2 : Except.ok (ε := PyErr) (Software.mk sw v code data) = Except.ok s := h
    have : Software.mk sw v code data = s := by simpa using h2
    subst this
    exact ⟨fun q hq => Or.inl hq, fun q hq => hq⟩

theorem indexSet_mem :
    ∀ (idx : Index) (sw swvers : String) (soft : Software) (fam : String)
      (entries : List (String × Software)),
      (fam, entries) ∈ indexSet idx sw swvers soft →
      ((∃ e2, (fam, e2) ∈ idx) ∨ fam = sw) ∧
      ∀ v s, (v, s) ∈ entries →
        (∃ e2, (fam, e2) ∈ idx ∧ (v, s) ∈ e2) ∨ (s = soft ∧ fam = sw) := by
  intro idx
  induction idx with
  | nil =>
    intro sw swvers soft fam entries h
    unfold indexSet at h
    have he := List.mem_singleton.mp h
    simp only [Prod.mk.injEq] at he
    obtain ⟨rfl, rfl⟩ := he
    refine ⟨Or.inr rfl, ?_⟩
    intro v s hv
    have he2 := List.mem_singleton.mp hv
    simp only [Prod.mk.injEq] at he2
    exact Or.inr ⟨he2.2, rfl⟩
  | cons hd rest ih =>
    intro sw swvers soft fam entries h
    obtain ⟨k1, inner1⟩ := hd
    unfold indexSet at h
    by_cases hk : k1 = sw
    · rw [if_pos hk] at h
      rcases List.mem_cons.mp h with he | hin
      · simp only [Prod.mk.injEq] at he
        obtain ⟨rfl, rfl⟩ := he
        refine ⟨Or.inl ⟨inner1, List.mem_cons_self _ _⟩, ?_⟩
        intro v s hv
        rcases dictSet_mem inner1 swvers soft v s hv with h2 | ⟨he2, _⟩
        · exact Or.inl ⟨inner1, List.mem_cons_self _ _, h2⟩
        · exact Or.inr ⟨he2, hk⟩
      · refine ⟨Or.inl ⟨entries, List.mem_cons_of_mem _ hin⟩, ?_⟩
        intro v s hv
        exact Or.inl ⟨entries, List.mem_cons_of_mem _ hin, hv⟩
    · rw [if_neg hk] at h
      rcases List.mem_cons.mp h with he | hin
      · simp only [Prod.mk.injEq] at he
        obtain ⟨rfl, rfl⟩ := he
        refine ⟨Or.inl ⟨_, List.mem_cons_self _ _⟩, ?_⟩
        intro v s hv
        exact Or.inl ⟨_, List.mem_cons_self _ _, hv⟩
      · obtain ⟨hkey, hmem⟩ := ih sw swvers soft fam entries hin
        constructor
        · rcases hkey with ⟨e2, he2⟩ | he2
          · exact Or.inl ⟨e2, List.mem_cons_of_mem _ he2⟩
          · exact Or.inr he2
        · intro v s hv
          rcases hmem v s hv with ⟨e2, he2, hv2⟩ | h2
          · exact Or.inl ⟨e2, List.mem_cons_of_mem _ he2, hv2⟩
          · exact Or.inr h2

theorem alookup_none_of {β : Type} :
    ∀ (d : List (String × β)) (key : String), (∀ kv ∈ d, kv.1 ≠ key) →
      alookup d key = none := by
  intro d
  induction d with
  | nil =>
    intro key _
    rfl
  | cons hd rest ih =>
    intro key hne
    obtain ⟨k1, v1⟩ := hd
    unfold alookup
    rw [if_neg (hne (k1, v1) (List.mem_cons_self _ _))]
    exact ih key (fun kv hkv => hne kv (List.mem_cons_of_mem _ hkv))

theorem alookup_mem {β : Type} :
    ∀ (d : List (String × β)) (key : String) (v : β), alookup d key = some v →
      (key, v) ∈ d := by
  intro d
  induction d with
  | nil =>
    intro key v h
    exact absurd h (by simp [alookup])
  | cons hd rest ih =>
    intro key v h
    obtain ⟨k1, v1⟩ := hd
    unfold alookup at h
    by_cases hk : k1 = key
    · rw [if_pos hk] at h
      have : v1 = v := by simpa using h
      subst this
      subst hk
      exact List.mem_cons_self _ _
    · rw [if_neg hk] at h
      exact List.mem_cons_of_mem _ (ih key v h)

theorem groupVersions_mem (sw : String) (Q : Package → Prop) :
    ∀ (pkglist : List Package) (acc svs : List (String × List Package)),
      (∀ p ∈ pkglist, Q p) →
      (∀ k xs, (k, xs) ∈ acc → ∀ p ∈ xs, Q p) →
      pkglist.foldlM (groupVersionsStep sw) acc = .ok svs →
      ∀ k xs, (k, xs) ∈ svs → ∀ p ∈ xs, Q p := by
  intro pkglist
  induction pkglist with
  | nil =>
    intro acc svs _ hacc h k xs hk p hp
    simp only [List.foldlM_nil] at h
    have h2 : Except.ok (ε := PyErr) acc = Except.ok svs := h
    have : acc = svs := by simpa using h2
    subst this
    exact hacc k xs hk p hp
  | cons p0 rest ih =>
    intro acc svs hq hacc h k xs hk p hp
    rw [List.foldlM_cons] at h
    by_cases hsw : p0.software = sw
    · rw [show groupVersionsStep sw acc p0 = .ok (dictAppend acc p0.software_vers p0) by
        unfold groupVersionsStep
        rw [if_pos hsw, exceptPure], exceptBindOk] at h
      refine ih (dictAppend acc p0.software_vers p0) svs
        (fun q hqq => hq q (List.mem_cons_of_mem _ hqq)) ?_ h k xs hk p hp
      intro k2 xs2 h2 q hq2
      rcases dictAppend_mem acc p0.software_vers p0 k2 xs2 h2 q hq2 with
        ⟨xs3, h3, hq3⟩ | ⟨he, _⟩
      · exact hacc k2 xs3 h3 q hq3
      · exact he ▸ hq p0 (List.mem_cons_self _ _)
    · rw [show groupVersionsStep sw acc p0 = .error .assertionError by
        unfold groupVersionsStep
        rw [if_neg hsw], exceptBindErr] at h
      exact absurd h (by simp)

theorem insertVersions_inv (sw : String) (hsw : sw ≠ "UTILITY") :
    ∀ (svs : List (String × List Package)) (idx res : Index),
      (∀ kv ∈ svs, ∀ p ∈ kv.2, p.software = sw) →
      GoodIdx idx →
      insertVersions sw svs idx = .ok res →
      GoodIdx res := by
  intro svs
  induction svs with
  | nil =>
    intro idx res _ hidx h
    unfold insertVersions at h
    simp only [List.foldlM_nil] at h
    have h2 : Except.ok (ε := PyErr) idx = Except.ok res := h
    have : idx = res := by simpa using h2
    subst this
    exact hidx
  | cons svkv rest ih =>
    intro idx res hq hidx h
    unfold insertVersions at h
    rw [List.foldlM_cons] at h
    cases hmc : _maxpackage (svkv.2.filter (fun p => !p.isdata)) with
    | error e =>
      rw [show insertVersionStep sw idx svkv = .error e by
        simp only [insertVersionStep]
        rw [hmc, exceptBindErr], exceptBindErr] at h
      exact absurd h (by simp)
    | ok mcode =>
      cases hmd : _maxpackage (svkv.2.filter (fun p => p.isdata)) with
      | error e =>
        rw [show insertVersionStep sw idx svkv = .error e by
          simp only [insertVersionStep]
          rw [hmc, exceptBindOk, hmd, exceptBindErr], exceptBindErr] at h
        exact absurd h (by simp)
      | ok mdata =>
        cases hmk : Software.make sw svkv.1 mcode mdata with
        | error e =>
          rw [show insertVersionStep sw idx svkv = .error e by
            simp only [insertVersionStep]
            rw [hmc, exceptBindOk, hmd, exceptBindOk, hmk, exceptBindErr],
            exceptBindErr] at h
          exact absurd h (by simp)
        | ok soft =>
          rw [show insertVersionStep sw idx svkv = .ok (indexSet idx sw svkv.1 soft) by
            simp only [insertVersionStep]
            rw [hmc, exceptBindOk, hmd, exceptBindOk, hmk, exceptBindOk, exceptPure],
            exceptBindOk] at h
          have hsoft : ∀ p, (p ∈ soft.packages ∨ p ∈ soft.data_packages) →
              p.software = sw := by
            obtain ⟨hpk, hdp⟩ := software_make_mem hmk
            intro p hp
            have hmem : p ∈ svkv.2 := by
              rcases hp with hp | hp
              · rcases hpk p hp with hin | hin
                · exact List.mem_of_mem_filter (_maxpackage_mem _ _ hmc p hin)
                · exact List.mem_of_mem_filter (_maxpackage_mem _ _ hmd p hin)
              · exact List.mem_of_mem_filter (_maxpackage_mem _ _ hmd p (hdp p hp))
            exact hq svkv (List.mem_cons_self _ _) p hmem
          refine ih (indexSet idx sw svkv.1 soft) res
            (fun kv hkv => hq kv (List.mem_cons_of_mem _ hkv)) ?_ h
          intro fam entries hfe
          obtain ⟨hkey, hmem⟩ := indexSet_mem idx sw svkv.1 soft fam entries hfe
          constructor
          · rcases hkey with ⟨e2, he2⟩ | he2
            · exact (hidx fam e2 he2).1
            · exact he2 ▸ hsw
          · intro vs s hv p hp
            rcases hmem vs s hv with ⟨e2, he2, hv2⟩ | ⟨hes, hef⟩
            · exact (hidx fam e2 he2).2 vs s hv2 p hp
            · subst hes
              rw [hef]
              exact hsoft p hp

theorem buildIndexFromMap_inv :
    ∀ (pkgMap : List (String × List Package)) (idx res : Index),
      (∀ kv ∈ pkgMap, ∀ p ∈ kv.2, p.software = kv.1) →
      GoodIdx idx →
      pkgMap.foldlM buildFamilyStep idx = .ok res →
      GoodIdx res := by
  intro pkgMap
  induction pkgMap with
  | nil =>
    intro idx res _ hidx h
    simp only [List.foldlM_nil] at h
    have h2 : Except.ok (ε := PyErr) idx = Except.ok res := h
    have : idx = res := by simpa using h2
    subst this
    exact hidx
  | cons kv rest ih =>
    intro idx res hmap hidx h
    rw [List.foldlM_cons] at h
    by_cases hu : kv.1 = "UTILITY"
    · rw [show buildFamilyStep idx kv = .ok idx by
        unfold buildFamilyStep
        rw [if_pos hu, exceptPure], exceptBindOk] at h
      exact ih idx res (fun kv2 hkv2 => hmap kv2 (List.mem_cons_of_mem _ hkv2)) hidx h
    · cases hgv : groupVersions kv.1 kv.2 with
      | error e =>
        rw [show buildFamilyStep idx kv = .error e by
          unfold buildFamilyStep
          rw [if_neg hu, hgv, exceptBindErr], exceptBindErr] at h
        exact absurd h (by simp)
      | ok svs =>
        cases hins : insertVersions kv.1 svs idx with
        | error e =>
          rw [show buildFamilyStep idx kv = .error e by
            unfold buildFamilyStep
            rw [if_neg hu, hgv, exceptBindOk, hins], exceptBindErr] at h
          exact absurd h (by simp)
        | ok idx2 =>
          rw [show buildFamilyStep idx kv = .ok idx2 by
            unfold buildFamilyStep
            rw [if_neg hu, hgv, exceptBindOk, hins], exceptBindOk] at h
          have hsvs : ∀ kv2 ∈ svs, ∀ p ∈ kv2.2, p.software = kv.1 := by
            intro kv2 hkv2 p hp
            obtain ⟨k2, xs2⟩ := kv2
            exact groupVersions_mem kv.1 (fun p => p.software = kv.1) kv.2 [] svs
              (hmap kv (List.mem_cons_self _ _))
              (fun k xs h2 => absurd h2 (List.not_mem_nil _)) hgv k2 xs2 hkv2 p hp
          have hidx2 : GoodIdx idx2 :=
            insertVersions_inv kv.1 hu svs idx idx2 hsvs hidx hins
          exact ih idx2 res (fun kv2 hkv2 => hmap kv2 (List.mem_cons_of_mem _ hkv2))
            hidx2 h

/-- C7: for every input package sequence, the built index never contains the
family key `"UTILITY"`, every package stored anywhere in the index belongs to
a non-`"UTILITY"` family, and consequently no successful resolution returns a
`Software` containing a `"UTILITY"` package. -/
theorem C7_utility_excluded (ps : List Package) (idx : Index)
    (h : build_index ps = .ok idx) :
    alookup idx "UTILITY" = none ∧
    (∀ fam entries, (fam, entries) ∈ idx → fam ≠ "UTILITY" ∧
      ∀ vs s, (vs, s) ∈ entries → ∀ p, (p ∈ s.packages ∨ p ∈ s.data_packages) →
        p.software ≠ "UTILITY") ∧
    ∀ name vers sws, resolve_software idx name vers = .ok sws →
      ∀ s ∈ sws, ∀ p, (p ∈ s.packages ∨ p ∈ s.data_packages) →
        p.software ≠ "UTILITY" := by
  have hgood : GoodIdx idx := by
    unfold build_index at h
    unfold buildIndexFromMap at h
    refine buildIndexFromMap_inv _ [] idx ?_ ?_ h
    · intro kv hkv p hp
      obtain ⟨k, xs⟩ := kv
      exact (groupFold_inv (fun p : Package => p.software) (fun _ => True) ps []
        (fun _ _ => trivial) (fun k2 xs2 h2 => absurd h2 (List.not_mem_nil _))
        k xs hkv p hp).2
    · intro fam entries h2
      exact absurd h2 (List.not_mem_nil _)
  refine ⟨?_, ?_, ?_⟩
  · refine alookup_none_of idx "UTILITY" ?_
    intro kv hkv
    obtain ⟨k, e⟩ := kv
    exact (hgood k e hkv).1
  · intro fam entries hfe
    obtain ⟨h1, h2⟩ := hgood fam entries hfe
    exact ⟨h1, fun vs s hv p hp => by rw [h2 vs s hv p hp]; exact h1⟩
  · intro name vers sws hres s hs p hp
    unfold resolve_software at hres
    cases hfam : alookup idx (pyUpper name) with
    | none =>
      simp only [hfam] at hres
      exact absurd hres (by simp)
    | some available =>
      simp only [hfam] at hres
      have hav : (pyUpper name, available) ∈ idx := alookup_mem idx _ _ hfam
      obtain ⟨hfu, hmem⟩ := hgood _ _ hav
      cases vers with
      | none =>
        simp only at hres
        unfold Software.latest_packages at hres
        cases hmv : _maxpackage_vers (available.map Prod.snd)
            Software.max_package_vers with
        | error e =>
          rw [hmv, exceptBindErr] at hres
          exact absurd hres (by simp)
        | ok mv =>
          rw [hmv, exceptBindOk] at hres
          rcases latestFilter_sub mv _ _ _ hres s hs with hin | hin
          · exact absurd hin (List.not_mem_nil s)
          · obtain ⟨⟨v2, s2⟩, ha, he⟩ := List.mem_map.mp hin
            have he2 : s2 = s := he
            subst he2
            rw [hmem v2 s2 ha p hp]
            exact hfu
      | some vstr =>
        simp only at hres
        cases hlook : alookup available vstr with
        | none =>
          simp only [hlook] at hres
          exact absurd hres (by simp)
        | some added =>
          simp only [hlook] at hres
          have hsw : [added] = sws := by simpa using hres
          have hsadd : s = added := by
            rw [← hsw] at hs
            exact List.mem_singleton.mp hs
          subst hsadd
          rw [hmem vstr s (alookup_mem available vstr s hlook) p hp]
          exact hfu

theorem C7_witness :
    alookup [("X", [("1", Software.mk "X" "1" [Package.mk "pkg-a" "1.0" "X" "1"] [])])]
      "UTILITY" = none ∧
    (∀ fam entries,
      (fam, entries) ∈
        ([("X", [("1", Software.mk "X" "1" [Package.mk "pkg-a" "1.0" "X" "1"] [])])] :
          Index) →
      fam ≠ "UTILITY" ∧
      ∀ vs s, (vs, s) ∈ entries → ∀ p, (p ∈ s.packages ∨ p ∈ s.data_packages) →
        p.software ≠ "UTILITY") ∧
    ∀ name vers sws,
      resolve_software
        [("X", [("1", Software.mk "X" "1" [Package.mk "pkg-a" "1.0" "X" "1"] [])])]
        name vers = .ok sws →
      ∀ s ∈ sws, ∀ p, (p ∈ s.packages ∨ p ∈ s.data_packages) →
        p.software ≠ "UTILITY" :=
  C7_utility_excluded
    [Package.mk "util-a" "1.0" "UTILITY" "1", Package.mk "pkg-a" "1.0" "X" "1"]
    [("X", [("1", Software.mk "X" "1" [Package.mk "pkg-a" "1.0" "X" "1"] [])])]
    (by decide)

end Sifbuilder
